import Mathlib

/-!
Verification development for the FANET routing agents of this repository:

* `src/Pengujian_psogaupdate_e2e_fixed.py` — the PSO-GA program (embedded in
  namespace `Psoga`), and
* `src/aodv_only_rpi_metrics.py` — the AODV-only program (embedded in
  namespace `Aodv`).

Conventions of the shallow embedding:

* Python ints (node ids, packet ids, sequence numbers, hop counts) are `ℤ`;
  `-1` is the sentinel the source uses for "unknown".
* Python floats (timestamps, metric values) are modelled as exact rationals
  `ℚ`; the single transcendental operation of the source
  (`math.log` in the fitness penalty) is modelled over `ℝ`.
* Python dicts keyed by ids are association lists `List (ℤ × α)` with
  `alookup` / `ainsert` / `aerase`; insertion position is irrelevant for every
  property proved here, so `ainsert` conses the new binding in front of the
  list with the old binding removed.
* `collections.deque` ring buffers are plain lists; the capacity bound is
  never reached in any statement below, so eviction is not modelled.
* `float(-inf)` results are modelled as `none : Option _`.
* On-wire bytes are `Fin 256`.
-/

set_option linter.unusedVariables false

namespace Fanet

/-! ### Constants shared by both programs (see the KONSTAN blocks) -/

def HELLO_INTERVAL : ℚ := 2
def ROUTE_TIMEOUT : ℚ := 10
def MAX_HOPS : ℕ := 10
def E2E_WINDOW_SEC : ℚ := 60
def SINK_NODE_ID : ℤ := 0

/-! ### Association-list helpers for Python dicts keyed by node or packet id -/

def alookup {α : Type} (k : ℤ) : List (ℤ × α) → Option α
  | [] => none
  | (k2, v) :: rest => if k = k2 then some v else alookup k rest

def aerase {α : Type} (k : ℤ) : List (ℤ × α) → List (ℤ × α)
  | [] => []
  | (k2, v) :: rest => if k = k2 then aerase k rest else (k2, v) :: aerase k rest

/-- Python dict assignment `d[k] = v`. -/
def ainsert {α : Type} (k : ℤ) (v : α) (l : List (ℤ × α)) : List (ℤ × α) :=
  (k, v) :: aerase k l

theorem alookup_ainsert_self {α : Type} (k : ℤ) (v : α) (l : List (ℤ × α)) :
    alookup k (ainsert k v l) = some v := by
  simp [ainsert, alookup]

theorem alookup_aerase_self {α : Type} (u : ℤ) (l : List (ℤ × α)) :
    alookup u (aerase u l) = none := by
  induction l with
  | nil => rfl
  | cons hd tl ih =>
      rcases hd with ⟨k2, v⟩
      by_cases hu : u = k2
      · simpa [aerase, hu] using ih
      · simpa [aerase, alookup, hu] using ih

theorem alookup_aerase_ne {α : Type} (k u : ℤ) (hne : k ≠ u) (l : List (ℤ × α)) :
    alookup k (aerase u l) = alookup k l := by
  induction l with
  | nil => rfl
  | cons hd tl ih =>
      rcases hd with ⟨k2, v⟩
      by_cases hu : u = k2
      · subst hu
        simpa [aerase, alookup, hne] using ih
      · by_cases hk : k = k2
        · simp [aerase, alookup, hu, hk]
        · simpa [aerase, alookup, hu, hk] using ih

theorem alookup_ainsert_ne {α : Type} (k u : ℤ) (hne : k ≠ u) (v : α) (l : List (ℤ × α)) :
    alookup k (ainsert u v l) = alookup k l := by
  simp [ainsert, alookup, hne, alookup_aerase_ne k u hne l]

/-- A successful lookup inside an erased table succeeds in the original table. -/
theorem alookup_of_alookup_aerase {α : Type} {k u : ℤ} {l : List (ℤ × α)} {e : α}
    (h : alookup k (aerase u l) = some e) : alookup k l = some e := by
  by_cases hk : k = u
  · subst hk
    rw [alookup_aerase_self] at h
    exact absurd h (by simp)
  · rwa [alookup_aerase_ne k u hk] at h

/-! ### Order-preserving de-duplication

Python uses two idioms that keep the first occurrence of every element:
the explicit seen-set loop in `PSOGAOptimizer.mutate` and
`list(dict.fromkeys(...))` in `PSOGAOptimizer.arithmetic_crossover`.
-/

def dedupFirstAux (seen : List ℤ) : List ℤ → List ℤ
  | [] => []
  | a :: rest =>
      if a ∈ seen then dedupFirstAux seen rest else a :: dedupFirstAux (a :: seen) rest

def dedupKeepFirst (l : List ℤ) : List ℤ := dedupFirstAux [] l

theorem mem_dedupFirstAux (x : ℤ) (seen : List ℤ) (l : List ℤ) :
    x ∈ dedupFirstAux seen l ↔ x ∈ l ∧ x ∉ seen := by
  induction l generalizing seen with
  | nil => simp [dedupFirstAux]
  | cons a rest ih =>
      by_cases ha : a ∈ seen
      · rw [dedupFirstAux, if_pos ha, ih]
        by_cases hxa : x = a
        · subst hxa; simp [ha]
        · simp [hxa]
      · rw [dedupFirstAux, if_neg ha]
        simp only [List.mem_cons, ih]
        by_cases hxa : x = a
        · subst hxa; simp [ha]
        · simp [hxa]

theorem nodup_dedupFirstAux (seen : List ℤ) (l : List ℤ) :
    (dedupFirstAux seen l).Nodup := by
  induction l generalizing seen with
  | nil => simp [dedupFirstAux]
  | cons a rest ih =>
      by_cases ha : a ∈ seen
      · simpa [dedupFirstAux, if_pos ha] using ih seen
      · rw [dedupFirstAux, if_neg ha]
        refine List.nodup_cons.mpr ⟨?_, ih (a :: seen)⟩
        intro hmem
        exact ((mem_dedupFirstAux a (a :: seen) rest).mp hmem).2 (List.mem_cons_self a seen)

theorem dedupFirstAux_eq_self (seen : List ℤ) (l : List ℤ) (hnd : l.Nodup)
    (hdisj : ∀ x ∈ l, x ∉ seen) : dedupFirstAux seen l = l := by
  induction l generalizing seen with
  | nil => rfl
  | cons a rest ih =>
      have ha : a ∉ seen := hdisj a (List.mem_cons_self a rest)
      rw [dedupFirstAux, if_neg ha]
      congr 1
      refine ih (a :: seen) (List.nodup_cons.mp hnd).2 ?_
      intro x hx
      simp only [List.mem_cons, not_or]
      exact ⟨fun hxa => (List.nodup_cons.mp hnd).1 (hxa ▸ hx),
             hdisj x (List.mem_cons_of_mem _ hx)⟩

theorem mem_dedupKeepFirst (x : ℤ) (l : List ℤ) : x ∈ dedupKeepFirst l ↔ x ∈ l := by
  simp [dedupKeepFirst, mem_dedupFirstAux]

theorem nodup_dedupKeepFirst (l : List ℤ) : (dedupKeepFirst l).Nodup :=
  nodup_dedupFirstAux [] l

theorem dedupKeepFirst_eq_self (l : List ℤ) (hnd : l.Nodup) : dedupKeepFirst l = l :=
  dedupFirstAux_eq_self [] l hnd (by simp)

/-! ### C6 — `AODVNode.calculate_hello_pdr` (Pengujian lines 697-704)

The deque of HELLO reception timestamps is pruned from the front while the
oldest entry is older than the window, then
`max(0.0, min(100.0, got/expected*100.0))` is returned with
`expected = max(1, int(window_sec / HELLO_INTERVAL))`.  The pruned deque is
returned as well because the source mutates it in place.
-/

def calculate_hello_pdr (now window : ℚ) (dq : List ℚ) : ℚ × List ℚ :=
  let dq2 := dq.dropWhile (fun t => decide (now - t > window))
  let expected : ℤ := max 1 ⌊window / HELLO_INTERVAL⌋
  let got : ℕ := dq2.length
  (max 0 (min 100 ((got : ℚ) / (expected : ℚ) * 100)), dq2)

/-- For a chronologically ordered deque, front-pruning is the same as
filtering to the timestamps inside the window. -/
theorem dropWhile_stale_eq_filter (now window : ℚ) (dq : List ℚ)
    (hsorted : dq.Pairwise (· ≤ ·)) :
    dq.dropWhile (fun t => decide (now - t > window))
      = dq.filter (fun t => decide (now - t ≤ window)) := by
  induction dq with
  | nil => rfl
  | cons a rest ih =>
      rcases List.pairwise_cons.mp hsorted with ⟨hall, htail⟩
      by_cases ha : now - a > window
      · rw [List.dropWhile_cons_of_pos (by simpa using ha),
            List.filter_cons_of_neg (by simpa using not_le.mpr ha)]
        exact ih htail
      · rw [List.dropWhile_cons_of_neg (by simpa using ha),
            List.filter_cons_of_pos (by simpa using not_lt.mp ha)]
        congr 1
        refine (List.filter_eq_self.mpr ?_).symm
        intro b hb
        have : now - b ≤ now - a := by
          have := hall b hb
          linarith
        simpa using le_trans this (not_lt.mp ha)

/-- Claim C6: for every neighbor, `calculate_hello_pdr` equals
`min(100, received/expected*100)` where `received` counts the HELLO reception
timestamps within the last `ROUTE_TIMEOUT` seconds (the deque is
chronologically ordered, as the source only ever appends the current time)
and `expected = max(1, ⌊ROUTE_TIMEOUT / HELLO_INTERVAL⌋) = 5`; with the
default constants, 5 timely HELLOs yield 100.0, 2 yield 40.0, none yield 0.0. -/
theorem C6_hello_pdr :
    (∀ (now : ℚ) (dq : List ℚ), dq.Pairwise (· ≤ ·) →
      (calculate_hello_pdr now ROUTE_TIMEOUT dq).1
        = min 100 (((dq.filter (fun t => decide (now - t ≤ ROUTE_TIMEOUT))).length : ℚ)
            / 5 * 100))
    ∧ (max 1 ⌊ROUTE_TIMEOUT / HELLO_INTERVAL⌋ : ℤ) = 5
    ∧ (calculate_hello_pdr 100 ROUTE_TIMEOUT [92, 94, 96, 98, 100]).1 = 100
    ∧ (calculate_hello_pdr 100 ROUTE_TIMEOUT [96, 98]).1 = 40
    ∧ (calculate_hello_pdr 100 ROUTE_TIMEOUT []).1 = 0 := by
  have hexp : ((max 1 ⌊ROUTE_TIMEOUT / HELLO_INTERVAL⌋ : ℤ) : ℚ) = 5 := by
    norm_num [ROUTE_TIMEOUT, HELLO_INTERVAL]
  refine ⟨?_, by norm_num [ROUTE_TIMEOUT, HELLO_INTERVAL],
    ?_, ?_, ?_⟩
  · intro now dq hsorted
    have hdef : calculate_hello_pdr now ROUTE_TIMEOUT dq
        = (max 0 (min 100
            (((dq.dropWhile (fun t => decide (now - t > ROUTE_TIMEOUT))).length : ℚ)
              / ((max 1 ⌊ROUTE_TIMEOUT / HELLO_INTERVAL⌋ : ℤ) : ℚ) * 100)),
           dq.dropWhile (fun t => decide (now - t > ROUTE_TIMEOUT))) := rfl
    rw [hdef, dropWhile_stale_eq_filter now ROUTE_TIMEOUT dq hsorted, hexp]
    exact max_eq_right (le_min (by norm_num) (by positivity))
  all_goals
    norm_num [calculate_hello_pdr, ROUTE_TIMEOUT, HELLO_INTERVAL, List.dropWhile,
      max_def, min_def]

/-- Witness for C6 at a concrete sorted deque. -/
theorem C6_hello_pdr_witness :
    (calculate_hello_pdr 50 ROUTE_TIMEOUT [45, 48]).1
      = min 100 (((([45, 48] : List ℚ).filter
          (fun t => decide ((50:ℚ) - t ≤ ROUTE_TIMEOUT))).length : ℚ) / 5 * 100) :=
  C6_hello_pdr.1 50 [45, 48] (by decide)

/-! ### C9 — the wire codec

`AODVNode.send_packet` packs the 14-byte header
`struct.pack('!B6s6sB', type, src_mac6, dst_mac6, ttl)` and appends the
payload bytes (Pengujian lines 752-771); `AODVNode.receive_packets` drops
frames shorter than 14 bytes and slices `data[0]`, `data[1:7]`, `data[7:13]`,
`data[13]`, `data[14:]` (lines 943-962).
-/

abbrev Byte := Fin 256

structure Frame where
  ptype : Byte
  src_mac : List Byte
  dst_mac : List Byte
  ttl : Byte
  payload : List Byte
deriving DecidableEq

def send_packet_encode (f : Frame) : List Byte :=
  f.ptype :: (f.src_mac ++ f.dst_mac ++ (f.ttl :: f.payload))

def receive_packets_decode : List Byte → Option Frame
  | t :: s1 :: s2 :: s3 :: s4 :: s5 :: s6 :: d1 :: d2 :: d3 :: d4 :: d5 :: d6 :: ttl :: rest =>
      some ⟨t, [s1, s2, s3, s4, s5, s6], [d1, d2, d3, d4, d5, d6], ttl, rest⟩
  | _ => none

/-- Claim C9: encoding a valid frame (6-byte MACs) with the header packing of
`send_packet` and parsing it back with the header slicing of
`receive_packets` is the identity on `(type, src_mac, dst_mac, ttl,
payload_bytes)`. -/
theorem C9_codec_roundtrip (f : Frame) (hsrc : f.src_mac.length = 6)
    (hdst : f.dst_mac.length = 6) :
    receive_packets_decode (send_packet_encode f) = some f := by
  rcases f with ⟨t, src, dst, ttl, payload⟩
  simp only at hsrc hdst
  rcases src with _ | ⟨s1, _ | ⟨s2, _ | ⟨s3, _ | ⟨s4, _ | ⟨s5, _ | ⟨s6, srest⟩⟩⟩⟩⟩⟩ <;>
    simp_all
  rcases dst with _ | ⟨d1, _ | ⟨d2, _ | ⟨d3, _ | ⟨d4, _ | ⟨d5, _ | ⟨d6, drest⟩⟩⟩⟩⟩⟩ <;>
    simp_all
  rcases srest with _ | ⟨x, xs⟩
  · rcases drest with _ | ⟨y, ys⟩
    · rfl
    · simp at hdst
  · simp at hsrc

/-- Witness for C9 at a concrete frame. -/
theorem C9_codec_roundtrip_witness :
    receive_packets_decode (send_packet_encode
      ⟨3, [0x78, 0x1C, 0x3C, 0xB9, 0x78, 0x54], [0xFF, 0xFF, 0xFF, 0xFF, 0xFF, 0xFF],
        10, [0x7B, 0x7D]⟩)
      = some ⟨3, [0x78, 0x1C, 0x3C, 0xB9, 0x78, 0x54], [0xFF, 0xFF, 0xFF, 0xFF, 0xFF, 0xFF],
        10, [0x7B, 0x7D]⟩ :=
  C9_codec_roundtrip _ (by decide) (by decide)

/-! ### C10 — route validation

`AODVNode.validate_route` (Pengujian lines 930-940) and
`PSOGAOptimizer.validate_route` (lines 471-481) run the identical checks:
missing path (for the optimizer also a falsy route, both modelled by `none`),
then `len(path) != len(set(path))` (a repeated element), then
`destination_id not in path`, then `path[0] != self`.  Neither compares
`path[-1]` with the destination.
-/

def validate_route (self : ℤ) (route : Option (List ℤ)) (dest : ℤ) : Bool :=
  match route with
  | none => false
  | some path =>
      if ¬ path.Nodup then false
      else if dest ∉ path then false
      else if path.head? ≠ some self then false
      else true

/-- Claim C10: `validate_route` returns `True` exactly when the path is
duplicate-free, starts at the node itself and contains the destination
anywhere; in particular a path with the destination at an interior position
is accepted even though its last element is not the destination. -/
theorem C10_validate_route :
    (∀ (self dest : ℤ) (route : Option (List ℤ)),
      validate_route self route dest = true
        ↔ ∃ p, route = some p ∧ p.Nodup ∧ dest ∈ p ∧ p.head? = some self)
    ∧ validate_route 4 (some [4, 0, 1]) 0 = true
    ∧ ([4, 0, 1] : List ℤ).getLast? ≠ some 0 := by
  refine ⟨?_, by decide, by decide⟩
  intro self dest route
  cases route with
  | none => simp [validate_route]
  | some p =>
      constructor
      · intro h
        refine ⟨p, rfl, ?_, ?_, ?_⟩ <;>
        · by_contra hc
          simp [validate_route, hc] at h
      · rintro ⟨q, hq, hnd, hmem, hhead⟩
        cases hq
        simp [validate_route, hnd, hmem, hhead]

/-- Witness for C10: the characterization instantiated at a concrete route. -/
theorem C10_validate_route_witness :
    validate_route 4 (some [4, 2]) 2 = true :=
  (C10_validate_route.1 4 2 (some [4, 2])).mpr
    ⟨[4, 2], rfl, by decide, by decide, rfl⟩

/-! ### Routing-table entries and end-to-end tracking state -/

/-- One entry of `routing_table` (both programs):
`{next_hop, hop_count, seq_num, last_update, path}`. -/
structure RouteEntry where
  next_hop : ℤ
  hop_count : ℤ
  seq_num : ℤ
  last_update : ℚ
  path : List ℤ
deriving DecidableEq

/-- One entry of `e2e_pending`: `{dest, t0, route, hops}`. -/
structure PendingEntry where
  dest : ℤ
  t0 : ℚ
  route : List ℤ
  hops : ℕ
deriving DecidableEq

/-- One entry of the Pengujian `e2e_ack_log[dest]` ring:
`(t_ack, packet_id, delay_ms, rssi_min, rssi_avg, route, hops)`.
The source stores the route as a space-joined string (or `None` for an empty
route); it is kept here as the `Option (List ℤ)` it was joined from. -/
structure AckEntry where
  t : ℚ
  packet_id : ℤ
  delay_ms : Option ℚ
  rssi_min : Option ℚ
  rssi_avg : Option ℚ
  route : Option (List ℤ)
  hops : ℕ
deriving DecidableEq

/-! ### C5 — `AODVNode._e2e_window_stats` (Pengujian lines 1013-1046)

Both deques are pruned in place of entries older than the window, then
`pdr = ack/sent*100` (0 when `sent = 0`) is clamped into `[0, 100]` and
averages of the optional delay and RSSI fields are taken.  The
`np.percentile(delays, 95)` field is an external numpy call and is not
modelled; no claim refers to it.  The pruned deques are returned because the
source mutates them in place.
-/

structure WindowStats where
  sent : ℕ
  ack : ℕ
  pdr : ℚ
  avg_delay_ms : Option ℚ
  avg_rssi_min : Option ℚ
  avg_rssi_avg : Option ℚ
deriving DecidableEq

def prune_sent (now window : ℚ) (dq : List (ℚ × ℤ)) : List (ℚ × ℤ) :=
  dq.dropWhile (fun x => decide (now - x.1 > window))

def prune_ack (now window : ℚ) (dq : List AckEntry) : List AckEntry :=
  dq.dropWhile (fun x => decide (now - x.t > window))

def listMean (l : List ℚ) : Option ℚ :=
  if l.isEmpty then none else some (l.sum / l.length)

def e2e_window_stats (now window : ℚ) (sent_dq : List (ℚ × ℤ)) (ack_dq : List AckEntry) :
    WindowStats × List (ℚ × ℤ) × List AckEntry :=
  let sent2 := prune_sent now window sent_dq
  let ack2 := prune_ack now window ack_dq
  let sent := sent2.length
  let ack := ack2.length
  let pdr : ℚ := if sent > 0 then (ack : ℚ) / (sent : ℚ) * 100 else 0
  (⟨sent, ack, max 0 (min 100 pdr),
    listMean (ack2.filterMap (fun x => x.delay_ms)),
    listMean (ack2.filterMap (fun x => x.rssi_min)),
    listMean (ack2.filterMap (fun x => x.rssi_avg))⟩,
   sent2, ack2)

/-- Arithmetic facts about the clamped ratio `max 0 (min 100 (ack/sent*100))`
used by the windowed statistics of both programs. -/
theorem pdr_clamp_props (s a : ℕ) :
    0 ≤ max 0 (min 100 (if s > 0 then (a : ℚ) / (s : ℚ) * 100 else 0))
    ∧ max 0 (min 100 (if s > 0 then (a : ℚ) / (s : ℚ) * 100 else 0)) ≤ 100
    ∧ (max 0 (min 100 (if s > 0 then (a : ℚ) / (s : ℚ) * 100 else 0)) = 0
        ↔ s = 0 ∨ a = 0)
    ∧ (max 0 (min 100 (if s > 0 then (a : ℚ) / (s : ℚ) * 100 else 0)) = 100
        ↔ 0 < s ∧ s ≤ a)
    ∧ (0 < s → a ≤ s →
        max 0 (min 100 (if s > 0 then (a : ℚ) / (s : ℚ) * 100 else 0))
          = (a : ℚ) / (s : ℚ) * 100) := by
  rcases Nat.eq_zero_or_pos s with hs0 | hspos
  · subst hs0
    norm_num [max_def, min_def]
  · have hsQ : (0 : ℚ) < (s : ℚ) := by exact_mod_cast hspos
    have hq0 : (0 : ℚ) ≤ (a : ℚ) / (s : ℚ) * 100 := by positivity
    rw [if_pos hspos]
    have hmax : max 0 (min 100 ((a : ℚ) / (s : ℚ) * 100))
        = min 100 ((a : ℚ) / (s : ℚ) * 100) :=
      max_eq_right (le_min (by norm_num) hq0)
    rw [hmax]
    refine ⟨le_min (by norm_num) hq0 |>.trans (le_of_eq rfl), min_le_left _ _, ?_, ?_, ?_⟩
    · constructor
      · intro h
        right
        have hval : (a : ℚ) / (s : ℚ) * 100 = 0 := by
          rcases min_cases (100 : ℚ) ((a : ℚ) / (s : ℚ) * 100) with ⟨heq, _⟩ | ⟨heq, _⟩ <;>
            rw [heq] at h
          · norm_num at h
          · exact h
        have haQ : (a : ℚ) = 0 := by
          have hne : (s : ℚ) ≠ 0 := ne_of_gt hsQ
          field_simp at hval
          have h100 : ((a : ℚ)) * 100 = 0 := by exact_mod_cast hval
          linarith
        exact_mod_cast haQ
      · rintro (h | h)
        · omega
        · rw [h]
          norm_num [min_def]
    · constructor
      · intro h
        refine ⟨hspos, ?_⟩
        have hge : (100 : ℚ) ≤ (a : ℚ) / (s : ℚ) * 100 := by
          by_contra hlt
          push_neg at hlt
          rw [min_eq_right (le_of_lt hlt)] at h
          rw [h] at hlt
          exact lt_irrefl _ hlt
        have hsa : (s : ℚ) ≤ (a : ℚ) := by
          rw [div_mul_eq_mul_div, le_div_iff₀ hsQ] at hge
          nlinarith
        exact_mod_cast hsa
      · rintro ⟨_, hle⟩
        have hge : (100 : ℚ) ≤ (a : ℚ) / (s : ℚ) * 100 := by
          rw [div_mul_eq_mul_div, le_div_iff₀ hsQ]
          have hsa : (s : ℚ) ≤ (a : ℚ) := by exact_mod_cast hle
          nlinarith
        exact min_eq_left hge
    · intro _ hle
      have hle100 : (a : ℚ) / (s : ℚ) * 100 ≤ 100 := by
        rw [div_mul_eq_mul_div, div_le_iff₀ hsQ]
        have haQ : (a : ℚ) ≤ (s : ℚ) := by exact_mod_cast hle
        nlinarith
      exact min_eq_right hle100

/-- Claim C5, counterexample: with one send inside the window and no ACKs the
reported PDR is `0` although the window does contain a send, so "the PDR
equals 0 iff there are no sends in the window" is false on the code. -/
theorem C5_counterexample :
    (e2e_window_stats 100 E2E_WINDOW_SEC [(95, 1)] []).1.pdr = 0
    ∧ (e2e_window_stats 100 E2E_WINDOW_SEC [(95, 1)] []).1.sent = 1 := by
  constructor
  · norm_num [e2e_window_stats, prune_sent, prune_ack, E2E_WINDOW_SEC,
      List.dropWhile, listMean, max_def, min_def]
  · norm_num [e2e_window_stats, prune_sent, prune_ack, E2E_WINDOW_SEC,
      List.dropWhile]

/-- Claim C5, amended: the per-destination window statistics prune
`sent_log[d]` and `ack_log[d]` of entries older than `E2E_WINDOW_SEC` and
report `pdr = ack/sent*100` (0 when `sent = 0`) clamped into `[0, 100]`;
the reported PDR always lies in `[0, 100]`, equals 0 iff the pruned window
contains no send or no ACK entry, and equals 100 iff the window contains at
least one send and at least as many ACK entries as sends. -/
theorem C5_amended (now : ℚ) (sent_dq : List (ℚ × ℤ)) (ack_dq : List AckEntry) :
    (e2e_window_stats now E2E_WINDOW_SEC sent_dq ack_dq).1.sent
        = (prune_sent now E2E_WINDOW_SEC sent_dq).length
    ∧ (e2e_window_stats now E2E_WINDOW_SEC sent_dq ack_dq).1.ack
        = (prune_ack now E2E_WINDOW_SEC ack_dq).length
    ∧ 0 ≤ (e2e_window_stats now E2E_WINDOW_SEC sent_dq ack_dq).1.pdr
    ∧ (e2e_window_stats now E2E_WINDOW_SEC sent_dq ack_dq).1.pdr ≤ 100
    ∧ ((e2e_window_stats now E2E_WINDOW_SEC sent_dq ack_dq).1.pdr = 0
        ↔ (e2e_window_stats now E2E_WINDOW_SEC sent_dq ack_dq).1.sent = 0
          ∨ (e2e_window_stats now E2E_WINDOW_SEC sent_dq ack_dq).1.ack = 0)
    ∧ ((e2e_window_stats now E2E_WINDOW_SEC sent_dq ack_dq).1.pdr = 100
        ↔ 0 < (e2e_window_stats now E2E_WINDOW_SEC sent_dq ack_dq).1.sent
          ∧ (e2e_window_stats now E2E_WINDOW_SEC sent_dq ack_dq).1.sent
              ≤ (e2e_window_stats now E2E_WINDOW_SEC sent_dq ack_dq).1.ack)
    ∧ (0 < (e2e_window_stats now E2E_WINDOW_SEC sent_dq ack_dq).1.sent →
        (e2e_window_stats now E2E_WINDOW_SEC sent_dq ack_dq).1.ack
            ≤ (e2e_window_stats now E2E_WINDOW_SEC sent_dq ack_dq).1.sent →
        (e2e_window_stats now E2E_WINDOW_SEC sent_dq ack_dq).1.pdr
          = ((e2e_window_stats now E2E_WINDOW_SEC sent_dq ack_dq).1.ack : ℚ)
              / ((e2e_window_stats now E2E_WINDOW_SEC sent_dq ack_dq).1.sent : ℚ) * 100) := by
  have main := pdr_clamp_props (prune_sent now E2E_WINDOW_SEC sent_dq).length
    (prune_ack now E2E_WINDOW_SEC ack_dq).length
  exact ⟨rfl, rfl, main.1, main.2.1, main.2.2.1, main.2.2.2.1, main.2.2.2.2⟩

/-- Witness for C5 at a concrete window. -/
theorem C5_amended_witness :
    0 ≤ (e2e_window_stats 100 E2E_WINDOW_SEC [(95, 1)]
          [⟨96, 1, some 12, none, none, none, 1⟩]).1.pdr
    ∧ (e2e_window_stats 100 E2E_WINDOW_SEC [(95, 1)]
          [⟨96, 1, some 12, none, none, none, 1⟩]).1.pdr = 100 :=
  ⟨(C5_amended 100 [(95, 1)] [⟨96, 1, some 12, none, none, none, 1⟩]).2.2.1,
   ((C5_amended 100 [(95, 1)] [⟨96, 1, some 12, none, none, none, 1⟩]).2.2.2.2.2.1).mpr
     (by constructor <;>
          norm_num [e2e_window_stats, prune_sent, prune_ack, E2E_WINDOW_SEC, List.dropWhile])⟩

/-! ### C1 — the routing-table operations of the PSO-GA program

`AODVNode.process_rrep` (Pengujian lines 1259-1282) installs
`routing_table[target_id] = {next_hop: source_id, hop_count: <from packet>,
seq_num, last_update: now, path: [self, source_id, target_id]}` whenever the
target is unknown or the packet advertises a smaller hop count.

`AODVNode.find_optimal_route` (lines 839-868) installs
`routing_table[destination_id] = {next_hop, hop_count: len(path)-1, seq_num,
last_update: now, path}` from the optimizer result.

`AODVNode.process_rerr` (lines 1284-1308) deletes the entry of the
unreachable node.
-/

def WFPath (self dest : ℤ) (p : List ℤ) : Prop :=
  p.head? = some self ∧ p.getLast? = some dest ∧ p.Nodup ∧ 2 ≤ p.length

instance (self dest : ℤ) (p : List ℤ) : Decidable (WFPath self dest p) := by
  unfold WFPath
  infer_instance

namespace Psoga

/-- The routing-table update of `AODVNode.process_rrep`.  The payload fields
are `source_id, dest_id, target_id, seq_num, hop_count`; `dest_id` is parsed
but not used for the install. -/
def process_rrep_table (self : ℤ) (table : List (ℤ × Fanet.RouteEntry))
    (source_id dest_id target_id seq_num hop_count : ℤ) (now : ℚ) :
    List (ℤ × Fanet.RouteEntry) :=
  let install :=
    match Fanet.alookup target_id table with
    | none => true
    | some cur => decide (cur.hop_count > hop_count)
  if install then
    Fanet.ainsert target_id
      ⟨source_id, hop_count, seq_num, now, [self, source_id, target_id]⟩ table
  else table

/-- The routing-table commit of `AODVNode.find_optimal_route` after the
optimizer returned the route `{path, next_hop}`. -/
def find_optimal_route_commit (table : List (ℤ × Fanet.RouteEntry))
    (destination_id : ℤ) (path : List ℤ) (next_hop seq_num : ℤ) (now : ℚ) :
    List (ℤ × Fanet.RouteEntry) :=
  Fanet.ainsert destination_id
    ⟨next_hop, (path.length : ℤ) - 1, seq_num, now, path⟩ table

/-- The routing-table deletion of `AODVNode.process_rerr`. -/
def process_rerr_table (table : List (ℤ × Fanet.RouteEntry))
    (unreachable_node : ℤ) : List (ℤ × Fanet.RouteEntry) :=
  Fanet.aerase unreachable_node table

end Psoga

/-- Claim C1, counterexample: starting from the empty routing table (the
initial state of node 4), handling one RREP whose sender is the destination
itself (`source_id = target_id = 0`, `hop_count = 1`, exactly what
`send_rrep` of a reached destination emits) is a reachable state.  The
installed entry has path `[4, 0, 0]`, which contains node 0 twice, and
`hop_count = 1 ≠ 2 = len(path) - 1`, so the claimed invariant fails. -/
theorem C1_counterexample :
    Psoga.process_rrep_table 4 [] 0 4 0 7 1 100
      = [(0, ⟨0, 1, 7, 100, [4, 0, 0]⟩)]
    ∧ ¬ ([4, 0, 0] : List ℤ).Nodup
    ∧ (1 : ℤ) ≠ (([4, 0, 0] : List ℤ).length : ℤ) - 1 := by
  refine ⟨rfl, by decide, by decide⟩

/-- Claim C1, amended: entries committed by `find_optimal_route` from a
well-formed optimizer path satisfy the full invariant (`path[0] = self`,
`path[-1] = dest`, no duplicate, `hop_count = len(path) - 1`); `process_rerr`
only removes entries, so it preserves any entry-wise invariant; but an entry
installed by `process_rrep` always has the three-node path
`[self, source_id, target_id]` with the packet's hop count, which satisfies
`path[0] = self` and `path[-1] = target` but in general neither
duplicate-freedom nor `hop_count = len(path) - 1`. -/
theorem C1_amended :
    (∀ (self : ℤ) (table : List (ℤ × Fanet.RouteEntry)) (dest : ℤ)
       (path : List ℤ) (next_hop seq_num : ℤ) (now : ℚ),
      Fanet.WFPath self dest path →
      ∃ e, Fanet.alookup dest
          (Psoga.find_optimal_route_commit table dest path next_hop seq_num now) = some e
        ∧ e.path.head? = some self ∧ e.path.getLast? = some dest
        ∧ e.path.Nodup ∧ e.hop_count = (e.path.length : ℤ) - 1)
    ∧ (∀ (table : List (ℤ × Fanet.RouteEntry)) (u d : ℤ) (e : Fanet.RouteEntry),
        Fanet.alookup d (Psoga.process_rerr_table table u) = some e →
        Fanet.alookup d table = some e)
    ∧ (∀ (self : ℤ) (table : List (ℤ × Fanet.RouteEntry))
         (src dst tgt seq hc : ℤ) (now : ℚ) (d : ℤ) (e : Fanet.RouteEntry),
        Fanet.alookup d (Psoga.process_rrep_table self table src dst tgt seq hc now) = some e →
        Fanet.alookup d table = some e
          ∨ (d = tgt ∧ e.path = [self, src, tgt] ∧ e.hop_count = hc
              ∧ e.path.head? = some self ∧ e.path.getLast? = some tgt)) := by
  refine ⟨?_, ?_, ?_⟩
  · intro self table dest path next_hop seq_num now hwf
    refine ⟨⟨next_hop, (path.length : ℤ) - 1, seq_num, now, path⟩, ?_, ?_, ?_, ?_, rfl⟩
    · exact Fanet.alookup_ainsert_self dest _ table
    · exact hwf.1
    · exact hwf.2.1
    · exact hwf.2.2.1
  · intro table u d e h
    exact Fanet.alookup_of_alookup_aerase h
  · intro self table src dst tgt seq hc now d e h
    simp only [Psoga.process_rrep_table] at h
    by_cases hinstall :
      (match Fanet.alookup tgt table with
       | none => true
       | some cur => decide (cur.hop_count > hc)) = true
    · rw [if_pos hinstall] at h
      by_cases hd : d = tgt
      · subst hd
        rw [Fanet.alookup_ainsert_self] at h
        cases h
        exact Or.inr ⟨rfl, rfl, rfl, rfl, rfl⟩
      · rw [Fanet.alookup_ainsert_ne d tgt hd] at h
        exact Or.inl h
    · rw [if_neg hinstall] at h
      exact Or.inl h

/-- Witness for C1 (amended) at concrete inputs. -/
theorem C1_amended_witness :
    (∃ e, Fanet.alookup 0
        (Psoga.find_optimal_route_commit [] 0 [4, 1, 0] 1 5 100) = some e
      ∧ e.path.head? = some 4 ∧ e.path.getLast? = some 0
      ∧ e.path.Nodup ∧ e.hop_count = (e.path.length : ℤ) - 1)
    ∧ Fanet.alookup 2 [] = (none : Option Fanet.RouteEntry) :=
  ⟨C1_amended.1 4 [] 0 [4, 1, 0] 1 5 100 (by decide), rfl⟩

/-! ### C3 — `AODVNode.process_rreq` of the AODV-only program (lines 532-579)

The handler parses `origin_id, dest_id, rreq_id, hop_count`, drops the packet
when any id (or the frame source) is the `-1` sentinel, drops it when
`(origin_id, rreq_id)` is already in `seen_rreq`, and otherwise: records the
pair, stores the reverse route `origin -> source`, answers with a RREP when
it is the destination or has a valid route, and else rebroadcasts the RREQ
with `hop_count + 1` and decremented TTL (dropping it when the decremented
TTL would be 0).  `send_rrep` only transmits when the next hop's MAC is
known (`macKnown`).
-/

/-- One entry of the AODV-only `reverse_route` cache. -/
structure RevEntry where
  next_hop : ℤ
  hop_count : ℤ
  last_update : ℚ
deriving DecidableEq

structure AodvState where
  seen_rreq : List (ℤ × ℤ)
  reverse_route : List (ℤ × RevEntry)
  routing_table : List (ℤ × RouteEntry)
deriving DecidableEq

/-- A transmission emitted while handling a RREQ. -/
inductive AodvOut
  | rrepSend (origin dest rreq hop next_hop : ℤ)
  | rreqForward (origin dest rreq hop ttl : ℤ)
deriving DecidableEq

/-- `AODVNode.route_valid` (AODV-only line 351-352). -/
def route_valid (now : ℚ) : Option RouteEntry → Bool
  | none => false
  | some e => decide (now - e.last_update ≤ ROUTE_TIMEOUT)

namespace Aodv

def process_rreq (self : ℤ) (macKnown : ℤ → Bool) (now : ℚ) (st : AodvState)
    (source_id origin_id dest_id rreq_id hop_count ttl : ℤ) :
    AodvState × List Fanet.AodvOut :=
  if origin_id = -1 ∨ dest_id = -1 ∨ rreq_id = -1 ∨ source_id = -1 then (st, [])
  else if (origin_id, rreq_id) ∈ st.seen_rreq then (st, [])
  else
    let st1 : Fanet.AodvState :=
      { seen_rreq := (origin_id, rreq_id) :: st.seen_rreq,
        reverse_route :=
          Fanet.ainsert origin_id ⟨source_id, hop_count + 1, now⟩ st.reverse_route,
        routing_table := st.routing_table }
    if dest_id = self then
      -- the reverse-route entry was written just now, so its freshness check
      -- `now - last_update <= ROUTE_TIMEOUT` always passes
      (st1, if macKnown source_id
            then [.rrepSend origin_id dest_id rreq_id 0 source_id] else [])
    else if Fanet.route_valid now (Fanet.alookup dest_id st.routing_table) then
      (st1, if macKnown source_id
            then [.rrepSend origin_id dest_id rreq_id
                   (((Fanet.alookup dest_id st.routing_table).map
                      (fun r => r.hop_count)).getD 0) source_id]
            else [])
    else if ttl - 1 ≤ 0 then (st1, [])
    else (st1, [.rreqForward origin_id dest_id rreq_id (hop_count + 1) (ttl - 1)])

end Aodv

/-- Claim C3: a RREQ whose `(origin_id, rreq_id)` pair is already in the
seen-RREQ set is silently dropped — no state change, no transmission — and
consequently delivering the same forwardable RREQ twice produces exactly one
forward broadcast, exactly one reverse-route entry write, and an unchanged
state on the second delivery. -/
theorem C3_rreq_dedup :
    (∀ (self : ℤ) (macKnown : ℤ → Bool) (now : ℚ) (st : AodvState)
       (src org dst rid hc ttl : ℤ),
      (org, rid) ∈ st.seen_rreq →
      Aodv.process_rreq self macKnown now st src org dst rid hc ttl = (st, []))
    ∧ (∀ (self : ℤ) (macKnown : ℤ → Bool) (now : ℚ) (st : AodvState)
         (src org dst rid hc ttl : ℤ),
        org ≠ -1 → dst ≠ -1 → rid ≠ -1 → src ≠ -1 →
        (org, rid) ∉ st.seen_rreq → dst ≠ self →
        route_valid now (alookup dst st.routing_table) = false → 1 < ttl →
        (Aodv.process_rreq self macKnown now st src org dst rid hc ttl).2
            ++ (Aodv.process_rreq self macKnown now
                  (Aodv.process_rreq self macKnown now st src org dst rid hc ttl).1
                  src org dst rid hc ttl).2
          = [.rreqForward org dst rid (hc + 1) (ttl - 1)]
        ∧ alookup org
            (Aodv.process_rreq self macKnown now st src org dst rid hc ttl).1.reverse_route
          = some ⟨src, hc + 1, now⟩
        ∧ (Aodv.process_rreq self macKnown now
              (Aodv.process_rreq self macKnown now st src org dst rid hc ttl).1
              src org dst rid hc ttl).1
          = (Aodv.process_rreq self macKnown now st src org dst rid hc ttl).1) := by
  constructor
  · intro self macKnown now st src org dst rid hc ttl hseen
    unfold Aodv.process_rreq
    by_cases hids : org = -1 ∨ dst = -1 ∨ rid = -1 ∨ src = -1
    · rw [if_pos hids]
    · rw [if_neg hids, if_pos hseen]
  · intro self macKnown now st src org dst rid hc ttl h1 h2 h3 h4 hseen hdst hroute httl
    have hids : ¬ (org = -1 ∨ dst = -1 ∨ rid = -1 ∨ src = -1) := by
      push_neg
      exact ⟨h1, h2, h3, h4⟩
    have hntl : ¬ (ttl - 1 ≤ 0) := by omega
    have hfirst : Aodv.process_rreq self macKnown now st src org dst rid hc ttl
        = ({ seen_rreq := (org, rid) :: st.seen_rreq,
             reverse_route := ainsert org ⟨src, hc + 1, now⟩ st.reverse_route,
             routing_table := st.routing_table },
           [.rreqForward org dst rid (hc + 1) (ttl - 1)]) := by
      unfold Aodv.process_rreq
      rw [if_neg hids, if_neg hseen, if_neg hdst]
      simp only [hroute, Bool.false_eq_true, if_false, if_neg hntl]
    have hsecond : Aodv.process_rreq self macKnown now
        (Aodv.process_rreq self macKnown now st src org dst rid hc ttl).1
        src org dst rid hc ttl
        = ((Aodv.process_rreq self macKnown now st src org dst rid hc ttl).1, []) := by
      rw [hfirst]
      unfold Aodv.process_rreq
      rw [if_neg hids, if_pos (by simp)]
    refine ⟨?_, ?_, ?_⟩
    · rw [hsecond, hfirst]
      rfl
    · rw [hfirst]
      exact alookup_ainsert_self org _ st.reverse_route
    · rw [hsecond]

/-- Witness for C3 at a concrete state: node 2 receives the RREQ
`(origin = 4, rreq_id = 7, dest = 0)` from node 4 twice. -/
theorem C3_rreq_dedup_witness :
    ((Aodv.process_rreq 2 (fun _ => true) 100 ⟨[], [], []⟩ 4 4 0 7 0 10).2
        ++ (Aodv.process_rreq 2 (fun _ => true) 100
              (Aodv.process_rreq 2 (fun _ => true) 100 ⟨[], [], []⟩ 4 4 0 7 0 10).1
              4 4 0 7 0 10).2
      = [.rreqForward 4 0 7 1 9])
    ∧ alookup 4 (Aodv.process_rreq 2 (fun _ => true) 100
        ⟨[], [], []⟩ 4 4 0 7 0 10).1.reverse_route = some ⟨4, 1, 100⟩ := by
  have h := C3_rreq_dedup.2 2 (fun _ => true) 100 ⟨[], [], []⟩ 4 4 0 7 0 10
    (by decide) (by decide) (by decide) (by decide) (by simp [AodvState.seen_rreq])
    (by decide) (by simp [route_valid, alookup]) (by decide)
  exact ⟨h.1, h.2.1⟩

/-! ### C7 — DATA send routing

The static `MAC_ADDRESSES` table is shared by both programs.
`node_id_to_mac` returns `""` (here `none`) for an unknown id and otherwise
the normalized MAC (colons and dashes removed, upper-cased); every configured
MAC passes the `is_valid_mac` regex, which is therefore not modelled.
-/

def MAC_ADDRESSES : List (ℤ × String) :=
  [(0, "78:1C:3C:B9:78:54"), (1, "6C:C8:40:4D:C9:3C"),
   (2, "1C:69:20:B8:D9:60"), (3, "78:1C:3C:B7:DF:20")]

def normalize_mac (m : String) : String :=
  String.mk ((m.data.filter (fun c => c ≠ ':' ∧ c ≠ '-')).map Char.toUpper)

def node_id_to_mac (nid : ℤ) : Option String :=
  match alookup nid MAC_ADDRESSES with
  | none => none
  | some mac => some (normalize_mac mac)

namespace Psoga

/-- A transmission decided at the end of `AODVNode.send_data`
(Pengujian lines 870-928). -/
inductive SendOut
  | dataTo (mac : String)
  | rerrBroadcast (unreachable : ℤ)
deriving DecidableEq

/-- The tail of `AODVNode.send_data` once `find_optimal_route` has succeeded
and the installed `route_info` passed `validate_route`: a fresh `packet_id`
is registered in `e2e_pending` and `e2e_sent_log[dest]`, and the DATA frame
is sent to `node_id_to_mac(destination_id)` when that MAC is known;
otherwise a RERR for the destination is broadcast and no DATA is sent.
The entry's `next_hop` only travels inside the JSON payload path. -/
def send_data_emit (self destination_id : ℤ) (route_info : Fanet.RouteEntry)
    (pid : ℤ) (now : ℚ)
    (pending : List (ℤ × Fanet.PendingEntry))
    (sent_log : List (ℤ × List (ℚ × ℤ))) :
    (List (ℤ × Fanet.PendingEntry)) × (List (ℤ × List (ℚ × ℤ))) × SendOut :=
  let route_path := route_info.path
  let pending2 := Fanet.ainsert pid
    ⟨destination_id, now, route_path, route_path.length - 1⟩ pending
  let sent2 :=
    Fanet.ainsert destination_id
      (((Fanet.alookup destination_id sent_log).getD []) ++ [(now, pid)]) sent_log
  match Fanet.node_id_to_mac destination_id with
  | some mac => (pending2, sent2, .dataTo mac)
  | none => (pending2, sent2, .rerrBroadcast destination_id)

end Psoga

namespace Aodv

/-- A transmission decided at the end of the AODV-only `send_data`
(lines 373-429). -/
inductive SendOut
  | dataTo (mac : String)
  | dataToGarbageMac
deriving DecidableEq

/-- The send decision of the AODV-only `send_data` after `discover_route`:
`routeOpt` is `routing_table.get(dest)` when discovery succeeded, else
`none`.  With no route and no known destination MAC the function returns
without sending anything (and without any RERR); with a route whose
`next_hop` MAC is known the frame goes to the next hop; otherwise it goes
directly to the destination MAC — which, when even that is unknown, is a
random generated MAC (`dataToGarbageMac`). -/
def send_data_action (destination_id : ℤ) (routeOpt : Option Fanet.RouteEntry) :
    Option SendOut :=
  let direct := Fanet.node_id_to_mac destination_id
  if routeOpt.isNone ∧ direct.isNone then none
  else
    let fallback : SendOut :=
      match direct with
      | some m => .dataTo m
      | none => .dataToGarbageMac
    match routeOpt with
    | some r =>
        match Fanet.node_id_to_mac r.next_hop with
        | some nh => some (.dataTo nh)
        | none => some fallback
    | none => some fallback

end Aodv

/-- Claim C7, counterexample: in the PSO-GA program, node 4 holds the
routing entry `{next_hop = 1, path = [4, 1, 0]}` for destination 0, and both
MAC addresses are known; `send_data` nevertheless transmits the DATA frame
to the MAC of destination 0, not to the MAC of next hop 1, so "the DATA
packet is sent to the route's next_hop MAC when a routing entry exists" is
false on the code. -/
theorem C7_counterexample :
    (Psoga.send_data_emit 4 0 ⟨1, 2, 5, 100, [4, 1, 0]⟩ 99 100 [] []).2.2
      = Psoga.SendOut.dataTo "781C3CB97854"
    ∧ node_id_to_mac 1 = some "6CC8404DC93C"
    ∧ (Psoga.SendOut.dataTo "781C3CB97854" : Psoga.SendOut)
        ≠ Psoga.SendOut.dataTo "6CC8404DC93C" := by
  refine ⟨rfl, rfl, by decide⟩

/-- Claim C7, amended: in the PSO-GA program `send_data` (after a successful
route optimization) always sends the DATA frame directly to the destination's
own MAC when that MAC is known — regardless of the entry's next hop — and
otherwise broadcasts an RERR for the destination and sends no DATA; in the
AODV-only program `send_data` sends to the next hop's MAC when a routing
entry exists and that MAC is known, else falls back to the destination's
MAC, sends nothing when there is neither a route nor a known destination
MAC, and never emits an RERR. -/
theorem C7_amended :
    (∀ (self dest : ℤ) (r : Fanet.RouteEntry) (pid : ℤ) (now : ℚ) pending sent_log mac,
      node_id_to_mac dest = some mac →
      (Psoga.send_data_emit self dest r pid now pending sent_log).2.2
        = Psoga.SendOut.dataTo mac)
    ∧ (∀ (self dest : ℤ) (r : Fanet.RouteEntry) (pid : ℤ) (now : ℚ) pending sent_log,
        node_id_to_mac dest = none →
        (Psoga.send_data_emit self dest r pid now pending sent_log).2.2
          = Psoga.SendOut.rerrBroadcast dest)
    ∧ (∀ (dest : ℤ) (r : Fanet.RouteEntry) (nh : String),
        node_id_to_mac r.next_hop = some nh →
        Aodv.send_data_action dest (some r) = some (.dataTo nh))
    ∧ (∀ (dest : ℤ) (r : Fanet.RouteEntry) (m : String),
        node_id_to_mac r.next_hop = none → node_id_to_mac dest = some m →
        Aodv.send_data_action dest (some r) = some (.dataTo m))
    ∧ (∀ (dest : ℤ) (m : String),
        node_id_to_mac dest = some m →
        Aodv.send_data_action dest none = some (.dataTo m))
    ∧ (∀ (dest : ℤ),
        node_id_to_mac dest = none →
        Aodv.send_data_action dest none = none) := by
  refine ⟨?_, ?_, ?_, ?_, ?_, ?_⟩
  · intro self dest r pid now pending sent_log mac hmac
    simp only [Psoga.send_data_emit, hmac]
  · intro self dest r pid now pending sent_log hmac
    simp only [Psoga.send_data_emit, hmac]
  · intro dest r nh hnh
    simp only [Aodv.send_data_action, hnh, Option.isNone_some, Bool.false_and,
      Option.isNone, Bool.and_eq_true, if_neg]
    split
    · simp_all
    · rfl
  · intro dest r m hnh hm
    simp only [Aodv.send_data_action, hnh, hm]
    split
    · simp_all
    · rfl
  · intro dest m hm
    simp only [Aodv.send_data_action, hm]
    split
    · simp_all
    · rfl
  · intro dest hm
    simp only [Aodv.send_data_action, hm]
    rfl

/-- Witness for C7 (amended) at concrete inputs. -/
theorem C7_amended_witness :
    (Psoga.send_data_emit 4 2 ⟨1, 2, 5, 100, [4, 1, 2]⟩ 99 100 [] []).2.2
      = Psoga.SendOut.dataTo "1C6920B8D960"
    ∧ (Psoga.send_data_emit 4 9 ⟨1, 2, 5, 100, [4, 1, 9]⟩ 99 100 [] []).2.2
      = Psoga.SendOut.rerrBroadcast 9
    ∧ Aodv.send_data_action 0 (some ⟨1, 2, 5, 100, [4, 1, 0]⟩)
      = some (.dataTo "6CC8404DC93C")
    ∧ Aodv.send_data_action 0 (some ⟨9, 2, 5, 100, [4, 9, 0]⟩)
      = some (.dataTo "781C3CB97854")
    ∧ Aodv.send_data_action 0 none = some (.dataTo "781C3CB97854")
    ∧ Aodv.send_data_action 9 none = none :=
  ⟨C7_amended.1 4 2 ⟨1, 2, 5, 100, [4, 1, 2]⟩ 99 100 [] [] "1C6920B8D960" rfl,
   C7_amended.2.1 4 9 ⟨1, 2, 5, 100, [4, 1, 9]⟩ 99 100 [] [] rfl,
   C7_amended.2.2.1 0 ⟨1, 2, 5, 100, [4, 1, 0]⟩ "6CC8404DC93C" rfl,
   C7_amended.2.2.2.1 0 ⟨9, 2, 5, 100, [4, 9, 0]⟩ "781C3CB97854" rfl rfl,
   C7_amended.2.2.2.2.1 0 "781C3CB97854" rfl,
   C7_amended.2.2.2.2.2 9 rfl⟩

/-! ### C4 — `AODVNode.process_ack` of the PSO-GA program (lines 1048-1142)

The handler parses the ACK payload; a missing `packet_id` and a
`packet_id` already in `e2e_seen_acks` both return without any state change.
Otherwise the id is recorded, the matching `e2e_pending` entry (if any) is
popped, the end-to-end delay and the min/avg of the RSSI values present in
`hop_metrics` are computed, and — only when the destination is known from
the pending entry — an entry is appended to `e2e_ack_log[dest]`, the window
statistics are recomputed (pruning both logs in place), and a row is written
to the persistence sink.  `ack_ts` is parsed but never used and is omitted.
In the no-pending branch of this program the destination is unknown, so
nothing is appended, nothing is persisted, and the locally computed delay is
only printed.
-/

/-- One row of the `e2e_metrics_psoga` persistence table (the agent-supplied
columns of `insert_e2e_metric`). -/
structure PersistRecord where
  packet_id : ℤ
  source_node : ℤ
  destination_node : ℤ
  route : Option (List ℤ)
  hops : ℕ
  e2e_delay_ms : Option ℚ
  e2e_rssi_min : Option ℚ
  e2e_rssi_avg : Option ℚ
  success : Bool
  window_pdr : ℚ
deriving DecidableEq

/-- The parsed fields of an ACK payload that the handler consumes:
`packet_id`, `sent_ts`, `route` (`d.get('route') or []`), and the optional
`rssi` field of each `hop_metrics` element. -/
structure AckPayload where
  packet_id : Option ℤ
  sent_ts : Option ℚ
  route : List ℤ
  hop_metrics : List (Option ℚ)
deriving DecidableEq

/-- The end-to-end tracking state of the PSO-GA node. -/
structure E2EState where
  pending : List (ℤ × PendingEntry)
  sent_log : List (ℤ × List (ℚ × ℤ))
  ack_log : List (ℤ × List AckEntry)
  seen_acks : List ℤ
deriving DecidableEq

namespace Psoga

def process_ack (self : ℤ) (now : ℚ) (st : Fanet.E2EState) (p : Fanet.AckPayload) :
    Fanet.E2EState × Option Fanet.AckEntry × Option Fanet.PersistRecord :=
  match p.packet_id with
  | none => (st, none, none)
  | some pid =>
    if pid ∈ st.seen_acks then (st, none, none)
    else
      let seen2 := pid :: st.seen_acks
      let route0 := p.route
      match Fanet.alookup pid st.pending with
      | some pe =>
          let dest_id := pe.dest
          let route := if route0 ≠ [] then route0 else pe.route
          let hops := pe.hops
          let delay : Option ℚ := some (max 0 ((now - pe.t0) * 1000))
          let rssi_vals := p.hop_metrics.filterMap id
          let rssi_min := rssi_vals.min?
          let rssi_avg := Fanet.listMean rssi_vals
          let routeOpt : Option (List ℤ) := if route ≠ [] then some route else none
          let entry : Fanet.AckEntry :=
            ⟨now, pid, delay, rssi_min, rssi_avg, routeOpt, hops⟩
          let ack1 :=
            Fanet.ainsert dest_id
              (((Fanet.alookup dest_id st.ack_log).getD []) ++ [entry]) st.ack_log
          let res := Fanet.e2e_window_stats now Fanet.E2E_WINDOW_SEC
            ((Fanet.alookup dest_id st.sent_log).getD [])
            ((Fanet.alookup dest_id ack1).getD [])
          let st2 : Fanet.E2EState :=
            ⟨Fanet.aerase pid st.pending,
             Fanet.ainsert dest_id res.2.1 st.sent_log,
             Fanet.ainsert dest_id res.2.2 ack1,
             seen2⟩
          let rec2 : Fanet.PersistRecord :=
            ⟨pid, self, dest_id, routeOpt, hops, delay, rssi_min, rssi_avg,
             true, res.1.pdr⟩
          (st2, some entry, some rec2)
      | none =>
          (⟨Fanet.aerase pid st.pending, st.sent_log, st.ack_log, seen2⟩, none, none)

/-- Iterated delivery of ACK payloads, collecting every appended
`ack_log` entry and every persisted record. -/
def process_ack_trace (self : ℤ) (st : Fanet.E2EState) :
    List (ℚ × Fanet.AckPayload) →
      Fanet.E2EState × List Fanet.AckEntry × List Fanet.PersistRecord
  | [] => (st, [], [])
  | (now, p) :: rest =>
      let r := process_ack self now st p
      let rr := process_ack_trace self r.1 rest
      (rr.1, r.2.1.toList ++ rr.2.1, r.2.2.toList ++ rr.2.2)

end Psoga

/-- Handling any ACK can only grow `seen_acks`. -/
theorem process_ack_seen_monotone (self : ℤ) (now : ℚ) (st : E2EState)
    (p : AckPayload) (x : ℤ) (hx : x ∈ st.seen_acks) :
    x ∈ (Psoga.process_ack self now st p).1.seen_acks := by
  rcases hq : p.packet_id with _ | q
  · simpa [Psoga.process_ack, hq] using hx
  · by_cases hmem : q ∈ st.seen_acks
    · simpa [Psoga.process_ack, hq, hmem] using hx
    · rcases hpend : alookup q st.pending with _ | pe <;>
        simp [Psoga.process_ack, hq, hmem, hpend] <;>
        exact Or.inr hx

/-- If a single delivery contributes an `ack_log` entry or a persisted record
carrying `pid`, then `pid` was unseen before and is seen afterwards. -/
theorem process_ack_emit_pid (self : ℤ) (now : ℚ) (st : E2EState)
    (p : AckPayload) (pid : ℤ)
    (h : (Psoga.process_ack self now st p).2.1.toList.filter
            (fun e => e.packet_id = pid) ≠ []
      ∨ (Psoga.process_ack self now st p).2.2.toList.filter
            (fun r => r.packet_id = pid) ≠ []) :
    pid ∉ st.seen_acks ∧ pid ∈ (Psoga.process_ack self now st p).1.seen_acks := by
  rcases hq : p.packet_id with _ | q
  · simp [Psoga.process_ack, hq] at h
  · by_cases hmem : q ∈ st.seen_acks
    · simp [Psoga.process_ack, hq, hmem] at h
    · rcases hpend : alookup q st.pending with _ | pe
      · simp [Psoga.process_ack, hq, hmem, hpend] at h
      · have hqp : q = pid := by
          rcases h with h | h <;>
          · simp only [Psoga.process_ack, hq, hmem, if_neg, hpend] at h
            simp only [Option.toList_some, List.filter, decide_eq_true_eq] at h
            by_cases hqq : q = pid
            · exact hqq
            · simp [hqq] at h
        subst hqp
        exact ⟨hmem, by simp [Psoga.process_ack, hq, hmem, hpend]⟩

/-- Once `pid` is seen, no later delivery contributes anything for `pid`. -/
theorem trace_no_emission_of_seen (self : ℤ) (pid : ℤ) :
    ∀ (inputs : List (ℚ × AckPayload)) (st : E2EState), pid ∈ st.seen_acks →
    (Psoga.process_ack_trace self st inputs).2.1.filter
        (fun e => e.packet_id = pid) = []
    ∧ (Psoga.process_ack_trace self st inputs).2.2.filter
        (fun r => r.packet_id = pid) = [] := by
  intro inputs
  induction inputs with
  | nil => intro st hst; exact ⟨rfl, rfl⟩
  | cons i rest ih =>
      intro st hst
      rcases i with ⟨now, p⟩
      have hstep : (Psoga.process_ack self now st p).2.1.toList.filter
            (fun e => e.packet_id = pid) = []
          ∧ (Psoga.process_ack self now st p).2.2.toList.filter
            (fun r => r.packet_id = pid) = [] := by
        by_contra hc
        rw [not_and_or] at hc
        have := process_ack_emit_pid self now st p pid (by tauto)
        exact this.1 hst
      have hnext := ih (Psoga.process_ack self now st p).1
        (process_ack_seen_monotone self now st p pid hst)
      constructor
      · show ((Psoga.process_ack self now st p).2.1.toList
            ++ (Psoga.process_ack_trace self (Psoga.process_ack self now st p).1 rest).2.1).filter
            (fun e => e.packet_id = pid) = []
        rw [List.filter_append, hstep.1, hnext.1]
        rfl
      · show ((Psoga.process_ack self now st p).2.2.toList
            ++ (Psoga.process_ack_trace self (Psoga.process_ack self now st p).1 rest).2.2).filter
            (fun r => r.packet_id = pid) = []
        rw [List.filter_append, hstep.2, hnext.2]
        rfl

/-- Claim C4: a duplicate ACK (a `packet_id` already in `seen_acks`) is a
complete no-op — pending map, logs and persistence are untouched — and over
any sequence of deliveries each distinct `packet_id` contributes at most one
`ack_log` entry and at most one persisted record. -/
theorem C4_ack_at_most_once :
    (∀ (self : ℤ) (now : ℚ) (st : E2EState) (p : AckPayload) (pid : ℤ),
      p.packet_id = some pid → pid ∈ st.seen_acks →
      Psoga.process_ack self now st p = (st, none, none))
    ∧ (∀ (self : ℤ) (st : E2EState) (inputs : List (ℚ × AckPayload)) (pid : ℤ),
        ((Psoga.process_ack_trace self st inputs).2.1.filter
            (fun e => e.packet_id = pid)).length ≤ 1
        ∧ ((Psoga.process_ack_trace self st inputs).2.2.filter
            (fun r => r.packet_id = pid)).length ≤ 1) := by
  constructor
  · intro self now st p pid hpid hmem
    simp [Psoga.process_ack, hpid, hmem]
  · intro self st inputs
    induction inputs generalizing st with
    | nil => intro pid; exact ⟨by simp [Psoga.process_ack_trace], by simp [Psoga.process_ack_trace]⟩
    | cons i rest ih =>
        intro pid
        rcases i with ⟨now, p⟩
        have hsplit1 : (Psoga.process_ack_trace self st ((now, p) :: rest)).2.1
            = (Psoga.process_ack self now st p).2.1.toList
              ++ (Psoga.process_ack_trace self (Psoga.process_ack self now st p).1 rest).2.1 := rfl
        have hsplit2 : (Psoga.process_ack_trace self st ((now, p) :: rest)).2.2
            = (Psoga.process_ack self now st p).2.2.toList
              ++ (Psoga.process_ack_trace self (Psoga.process_ack self now st p).1 rest).2.2 := rfl
        rw [hsplit1, hsplit2, List.filter_append, List.filter_append,
          List.length_append, List.length_append]
        by_cases hstep : (Psoga.process_ack self now st p).2.1.toList.filter
              (fun e => e.packet_id = pid) = []
            ∧ (Psoga.process_ack self now st p).2.2.toList.filter
              (fun r => r.packet_id = pid) = []
        · rw [hstep.1, hstep.2]
          simpa using ih (Psoga.process_ack self now st p).1 pid
        · rw [not_and_or] at hstep
          have hpid := process_ack_emit_pid self now st p pid (by tauto)
          have hrest := trace_no_emission_of_seen self pid rest
            (Psoga.process_ack self now st p).1 hpid.2
          rw [hrest.1, hrest.2]
          have hb1 : ((Psoga.process_ack self now st p).2.1.toList.filter
              (fun e => e.packet_id = pid)).length ≤ 1 := by
            calc ((Psoga.process_ack self now st p).2.1.toList.filter
                (fun e => e.packet_id = pid)).length
                ≤ (Psoga.process_ack self now st p).2.1.toList.length :=
                  List.length_filter_le _ _
              _ ≤ 1 := by rcases (Psoga.process_ack self now st p).2.1 with _ | x <;> simp
          have hb2 : ((Psoga.process_ack self now st p).2.2.toList.filter
              (fun r => r.packet_id = pid)).length ≤ 1 := by
            calc ((Psoga.process_ack self now st p).2.2.toList.filter
                (fun r => r.packet_id = pid)).length
                ≤ (Psoga.process_ack self now st p).2.2.toList.length :=
                  List.length_filter_le _ _
              _ ≤ 1 := by rcases (Psoga.process_ack self now st p).2.2 with _ | x <;> simp
          constructor
          · simpa using hb1
          · simpa using hb2

/-- Witness for C4 at a concrete duplicate delivery. -/
theorem C4_ack_at_most_once_witness :
    Psoga.process_ack 4 100 ⟨[], [], [], [7]⟩ ⟨some 7, some 99, [4, 0], [some (-55)]⟩
      = (⟨[], [], [], [7]⟩, none, none)
    ∧ ((Psoga.process_ack_trace 4 ⟨[], [], [], []⟩
          [(100, ⟨some 7, some 99, [4, 0], [some (-55)]⟩),
           (101, ⟨some 7, some 99, [4, 0], [some (-55)]⟩)]).2.1.filter
          (fun e => e.packet_id = 7)).length ≤ 1 :=
  ⟨C4_ack_at_most_once.1 4 100 ⟨[], [], [], [7]⟩
      ⟨some 7, some 99, [4, 0], [some (-55)]⟩ 7 rfl (by decide),
   (C4_ack_at_most_once.2 4 ⟨[], [], [], []⟩
      [(100, ⟨some 7, some 99, [4, 0], [some (-55)]⟩),
       (101, ⟨some 7, some 99, [4, 0], [some (-55)]⟩)] 7).1⟩

/-! ### C2 — `PSOGAOptimizer.calculate_fitness` (Pengujian lines 280-305)

The fitness first rejects routes missing a path, shorter than 2 nodes, with
wrong endpoints or with a duplicate node (`float('-inf')`, modelled `none`);
for the rest it averages the per-hop score
`0.5*norm_rssi + 0.3*norm_latency + 0.2*norm_pdr` over the hops and applies
the penalty `1 / (1 + log(1 + hops))`.  The per-edge metric getter
`_get_edge_metric` prefers the mean of the recorded edge ring, then the last
topology report for the head node, then the caller default; the fitness is
stated over an arbitrary getter `g` so that it covers every reachable metric
store.
-/

inductive MetricKey
  | rssi
  | delay
  | pdr
deriving DecidableEq

namespace Psoga

/-- `PSOGAOptimizer._get_edge_metric` (lines 231-239). -/
def get_edge_metric (edge : ℤ → ℤ → Fanet.MetricKey → List ℚ)
    (topo : ℤ → Fanet.MetricKey → Option ℚ) (u v : ℤ) (k : Fanet.MetricKey)
    (default : ℚ) : ℚ :=
  let dq := edge u v k
  if ¬ dq.isEmpty then dq.sum / dq.length
  else
    match topo v k with
    | some m => m
    | none => default

/-- The per-hop score of `calculate_fitness`. -/
def hop_fit (rssi delay pdr : ℚ) : ℚ :=
  let norm_rssi := max 0 (min 1 ((rssi + 110) / 40))
  let norm_latency := max 0 (1 - delay / 1000 / 0.1)
  let norm_pdr := pdr / 100
  0.5 * norm_rssi + 0.3 * norm_latency + 0.2 * norm_pdr

/-- The computable core of `calculate_fitness`: the validity checks in source
order and the pre-penalty average, paired with the hop count.  `none` models
`float('-inf')`. -/
def calculate_fitness_core (g : ℤ → ℤ → Fanet.MetricKey → ℚ → ℚ) (self : ℤ)
    (route : Option (List ℤ)) (destination_id : ℤ) : Option (ℚ × ℕ) :=
  match route with
  | none => none
  | some path =>
      if path.length < 2 then none
      else if path.head? ≠ some self ∨ path.getLast? ≠ some destination_id then none
      else if ¬ path.Nodup then none
      else
        let hops := path.length - 1
        let total := ((path.zip path.tail).map (fun uv =>
          hop_fit (g uv.1 uv.2 .rssi (-90)) (g uv.1 uv.2 .delay 100)
            (g uv.1 uv.2 .pdr 50))).sum
        some (if 0 < hops then total / (hops : ℚ) else 0, hops)

/-- The hop-length penalty `1.0 / (1.0 + math.log(1 + hops))`. -/
noncomputable def hop_penalty (hops : ℕ) : ℝ :=
  1 / (1 + Real.log (1 + (hops : ℝ)))

noncomputable def calculate_fitness (g : ℤ → ℤ → Fanet.MetricKey → ℚ → ℚ)
    (self : ℤ) (route : Option (List ℤ)) (destination_id : ℤ) : Option ℝ :=
  (calculate_fitness_core g self route destination_id).map
    (fun x => (x.1 : ℝ) * hop_penalty x.2)

end Psoga

/-- The per-hop score lies in `[0, 1]` whenever the delay metric is
nonnegative and the PDR metric lies in `[0, 100]` (the RSSI term is clamped
unconditionally). -/
theorem hop_fit_mem_unit (r l d : ℚ) (hl : 0 ≤ l) (hd0 : 0 ≤ d) (hd1 : d ≤ 100) :
    0 ≤ Psoga.hop_fit r l d ∧ Psoga.hop_fit r l d ≤ 1 := by
  unfold Psoga.hop_fit
  simp only
  have hr0 : (0:ℚ) ≤ max 0 (min 1 ((r + 110) / 40)) := le_max_left 0 _
  have hr1 : max 0 (min 1 ((r + 110) / 40)) ≤ 1 :=
    max_le (by norm_num) (min_le_left 1 _)
  have hl0 : (0:ℚ) ≤ max 0 (1 - l / 1000 / 0.1) := le_max_left 0 _
  have hl1 : max 0 (1 - l / 1000 / 0.1) ≤ 1 := by
    apply max_le (by norm_num)
    have : 0 ≤ l / 1000 / 0.1 := by positivity
    linarith
  have hp0 : (0:ℚ) ≤ d / 100 := by positivity
  have hp1 : d / 100 ≤ 1 := by linarith
  constructor <;> nlinarith

/-- The penalty `1 / (1 + log(1 + hops))` lies in `(0, 1]`. -/
theorem hop_penalty_mem (h : ℕ) : 0 < Psoga.hop_penalty h ∧ Psoga.hop_penalty h ≤ 1 := by
  unfold Psoga.hop_penalty
  have hlog : 0 ≤ Real.log (1 + (h : ℝ)) := by
    apply Real.log_nonneg
    have : (0:ℝ) ≤ (h : ℝ) := Nat.cast_nonneg h
    linarith
  have hden : (0:ℝ) < 1 + Real.log (1 + (h : ℝ)) := by linarith
  constructor
  · positivity
  · rw [div_le_one hden]
    linarith

/-- Claim C2, amended: `calculate_fitness` is `-inf` (`none`) exactly on the
claimed invalid inputs, and for every valid path it lies in `[0, 1]`
provided every consulted edge metric respects the data-model ranges
(delay ≥ 0 and PDR in `[0, 100]`); out-of-range stored metrics — reachable
through the unvalidated `hop_metrics` lists of received packets — can push
the fitness above 1 (see the counterexample). -/
theorem C2_amended :
    (∀ (g : ℤ → ℤ → MetricKey → ℚ → ℚ) (self : ℤ)
       (route : Option (List ℤ)) (dest : ℤ),
      (route = none ∨ ∃ p, route = some p ∧
        (p.length < 2 ∨ p.head? ≠ some self ∨ p.getLast? ≠ some dest ∨ ¬ p.Nodup)) →
      Psoga.calculate_fitness g self route dest = none)
    ∧ (∀ (g : ℤ → ℤ → MetricKey → ℚ → ℚ) (self : ℤ) (p : List ℤ) (dest : ℤ),
        2 ≤ p.length → p.head? = some self → p.getLast? = some dest → p.Nodup →
        (∀ u v, 0 ≤ g u v .delay 100 ∧ 0 ≤ g u v .pdr 50 ∧ g u v .pdr 50 ≤ 100) →
        ∃ f : ℝ, Psoga.calculate_fitness g self (some p) dest = some f
          ∧ 0 ≤ f ∧ f ≤ 1) := by
  constructor
  · intro g self route dest hbad
    have hcore : Psoga.calculate_fitness_core g self route dest = none := by
      rcases hbad with rfl | ⟨p, rfl, hbad⟩
      · rfl
      · simp only [Psoga.calculate_fitness_core]
        rcases hbad with h | h | h | h
        · rw [if_pos h]
        · by_cases hlen : p.length < 2
          · rw [if_pos hlen]
          · rw [if_neg hlen, if_pos (Or.inl h)]
        · by_cases hlen : p.length < 2
          · rw [if_pos hlen]
          · rw [if_neg hlen, if_pos (Or.inr h)]
        · by_cases hlen : p.length < 2
          · rw [if_pos hlen]
          · by_cases hends : p.head? ≠ some self ∨ p.getLast? ≠ some dest
            · rw [if_neg hlen, if_pos hends]
            · rw [if_neg hlen, if_neg hends, if_pos h]
    unfold Psoga.calculate_fitness
    rw [hcore]
    rfl
  · intro g self p dest hlen hhead hlast hnodup hg
    have hlen2 : ¬ p.length < 2 := by omega
    have hends : ¬ (p.head? ≠ some self ∨ p.getLast? ≠ some dest) := by
      push_neg
      exact ⟨hhead, hlast⟩
    have hhops : 0 < p.length - 1 := by omega
    set lst := (p.zip p.tail).map (fun uv =>
      Psoga.hop_fit (g uv.1 uv.2 .rssi (-90)) (g uv.1 uv.2 .delay 100)
        (g uv.1 uv.2 .pdr 50)) with hlst
    have hcore : Psoga.calculate_fitness_core g self (some p) dest
        = some (lst.sum / ((p.length - 1 : ℕ) : ℚ), p.length - 1) := by
      simp only [Psoga.calculate_fitness_core]
      rw [if_neg hlen2, if_neg hends, if_neg (by simpa using hnodup), if_pos hhops]
    have hlstlen : lst.length = p.length - 1 := by
      rw [hlst, List.length_map, List.length_zip, List.length_tail]
      omega
    have hmem : ∀ x ∈ lst, 0 ≤ x ∧ x ≤ 1 := by
      intro x hx
      rw [hlst] at hx
      rcases List.mem_map.mp hx with ⟨uv, _, rfl⟩
      exact hop_fit_mem_unit _ _ _ (hg uv.1 uv.2).1 (hg uv.1 uv.2).2.1 (hg uv.1 uv.2).2.2
    have hsum0 : 0 ≤ lst.sum := List.sum_nonneg (fun x hx => (hmem x hx).1)
    have hsum1 : lst.sum ≤ (p.length - 1 : ℕ) := by
      calc lst.sum ≤ lst.length • (1:ℚ) :=
            List.sum_le_card_nsmul lst 1 (fun x hx => (hmem x hx).2)
        _ = ((p.length - 1 : ℕ) : ℚ) := by
            rw [hlstlen]
            simp
    have hhopsQ : (0:ℚ) < ((p.length - 1 : ℕ) : ℚ) := by exact_mod_cast hhops
    have havg0 : 0 ≤ lst.sum / ((p.length - 1 : ℕ) : ℚ) := by positivity
    have havg1 : lst.sum / ((p.length - 1 : ℕ) : ℚ) ≤ 1 := by
      rw [div_le_one hhopsQ]
      exact hsum1
    have hpen := hop_penalty_mem (p.length - 1)
    have hA0 : (0:ℝ) ≤ ((lst.sum / ((p.length - 1 : ℕ) : ℚ) : ℚ) : ℝ) :=
      Rat.cast_nonneg.mpr havg0
    have hA1 : ((lst.sum / ((p.length - 1 : ℕ) : ℚ) : ℚ) : ℝ) ≤ 1 := by
      have hc := (Rat.cast_le (K := ℝ)).mpr havg1
      simpa only [Rat.cast_one] using hc
    refine ⟨((lst.sum / ((p.length - 1 : ℕ) : ℚ) : ℚ) : ℝ)
        * Psoga.hop_penalty (p.length - 1), ?_, ?_, ?_⟩
    · unfold Psoga.calculate_fitness
      rw [hcore]
      rfl
    · exact mul_nonneg hA0 (le_of_lt hpen.1)
    · exact mul_le_one₀ hA1 (le_of_lt hpen.1) hpen.2

/-- An edge-metric store holding an out-of-range PDR sample (1000 %) for the
edge `(4, 0)` — such samples are written verbatim to `edge_metrics` by
`record_edge_metric` from the unvalidated `hop_metrics` of received HELLO or
DATA payloads. -/
def badEdgeStore : ℤ → ℤ → MetricKey → List ℚ := fun _ _ k =>
  match k with
  | .rssi => [-110]
  | .delay => [100]
  | .pdr => [1000]

def emptyTopology : ℤ → MetricKey → Option ℚ := fun _ _ => none

/-- Claim C2, counterexample: the path `[4, 0]` passes every validity check,
yet with the (reachable) edge store `badEdgeStore` its fitness is
`2 / (1 + log 2) > 1`, so "the returned fitness lies in `[0, 1]` for every
valid route" is false on the code. -/
theorem C2_counterexample :
    WFPath 4 0 [4, 0]
    ∧ ∃ f : ℝ,
        Psoga.calculate_fitness (Psoga.get_edge_metric badEdgeStore emptyTopology)
          4 (some [4, 0]) 0 = some f ∧ 1 < f := by
  constructor
  · decide
  · have hr : Psoga.get_edge_metric badEdgeStore emptyTopology 4 0 .rssi (-90) = -110 := by
      norm_num [Psoga.get_edge_metric, badEdgeStore]
    have hl : Psoga.get_edge_metric badEdgeStore emptyTopology 4 0 .delay 100 = 100 := by
      norm_num [Psoga.get_edge_metric, badEdgeStore]
    have hd : Psoga.get_edge_metric badEdgeStore emptyTopology 4 0 .pdr 50 = 1000 := by
      norm_num [Psoga.get_edge_metric, badEdgeStore]
    have hfit : Psoga.hop_fit (-110) 100 1000 = 2 := by
      norm_num [Psoga.hop_fit, max_def, min_def]
    have hcore : Psoga.calculate_fitness_core
        (Psoga.get_edge_metric badEdgeStore emptyTopology) 4 (some [4, 0]) 0
        = some (2, 1) := by
      simp only [Psoga.calculate_fitness_core]
      rw [if_neg (by norm_num), if_neg (by decide), if_neg (by decide)]
      simp only [List.tail_cons, List.zip_cons_cons, List.zip_nil_right,
        List.map_cons, List.map_nil, List.sum_cons, List.sum_nil]
      norm_num [hr, hl, hd, hfit]
    refine ⟨(2 : ℝ) * Psoga.hop_penalty 1, ?_, ?_⟩
    · unfold Psoga.calculate_fitness
      rw [hcore]
      show some (((2:ℚ) : ℝ) * Psoga.hop_penalty 1) = some ((2:ℝ) * Psoga.hop_penalty 1)
      norm_num
    · have hpen1 : Psoga.hop_penalty 1 = 1 / (1 + Real.log 2) := by
        unfold Psoga.hop_penalty
        norm_num
      have hlog2pos : 0 < Real.log 2 := Real.log_pos (by norm_num)
      have hlog2lt : Real.log 2 < 1 := lt_trans Real.log_two_lt_d9 (by norm_num)
      have hden : (0:ℝ) < 1 + Real.log 2 := by linarith
      rw [hpen1, mul_one_div]
      rw [one_lt_div hden]
      linarith

/-- Witness for C2 (amended) at concrete inputs: the default-metric fitness
of the direct path `[4, 0]` is defined and lies in `[0, 1]`, and the
duplicate path `[4, 1, 4, 0]` scores `-inf`. -/
theorem C2_amended_witness :
    (∃ f : ℝ, Psoga.calculate_fitness (fun _ _ k d => d) 4 (some [4, 0]) 0 = some f
        ∧ 0 ≤ f ∧ f ≤ 1)
    ∧ Psoga.calculate_fitness (fun _ _ k d => d) 4 (some [4, 1, 4, 0]) 0 = none :=
  ⟨C2_amended.2 (fun _ _ k d => d) 4 [4, 0] 0 (by decide) (by decide) (by decide)
      (by decide) (fun u v => by norm_num),
   C2_amended.1 (fun _ _ k d => d) 4 (some [4, 1, 4, 0]) 0
      (Or.inr ⟨[4, 1, 4, 0], rfl, Or.inr (Or.inr (Or.inr (by decide)))⟩)⟩

/-! ### List helpers for the candidate-path proofs -/

theorem head?_append_of_ne_nil {α : Type} (l₁ l₂ : List α) (h : l₁ ≠ []) :
    (l₁ ++ l₂).head? = l₁.head? := by
  cases l₁ with
  | nil => exact absurd rfl h
  | cons a t => rfl

theorem getLast?_cons_of_ne_nil {α : Type} (a : α) {t : List α} (h : t ≠ []) :
    (a :: t).getLast? = t.getLast? := by
  cases t with
  | nil => exact absurd rfl h
  | cons b u => exact List.getLast?_cons_cons

theorem getLast?_drop {α : Type} : ∀ (l : List α) (k : ℕ), k < l.length →
    (l.drop k).getLast? = l.getLast? := by
  intro l
  induction l with
  | nil => intro k hk; simp at hk
  | cons a t ih =>
      intro k hk
      cases k with
      | zero => rfl
      | succ m =>
          have hm : m < t.length := by simpa using hk
          have htne : t ≠ [] := by
            intro h
            rw [h] at hm
            simp at hm
          rw [List.drop_succ_cons, ih m hm, getLast?_cons_of_ne_nil a htne]

theorem head?_take_pos {α : Type} (l : List α) (k : ℕ) (hk : 1 ≤ k) :
    (l.take k).head? = l.head? := by
  cases l with
  | nil => simp
  | cons a t =>
      cases k with
      | zero => omega
      | succ m => rfl

theorem takeDrop_sublist {α : Type} : ∀ (l : List α) (k : ℕ),
    List.Sublist (l.take k ++ l.drop (k + 1)) l := by
  intro l
  induction l with
  | nil => intro k; simp
  | cons a t ih =>
      intro k
      cases k with
      | zero =>
          simp only [List.take_zero, List.drop_succ_cons, List.drop_zero, List.nil_append]
          exact List.sublist_cons_self a t
      | succ m =>
          simpa using List.Sublist.cons₂ a (ih m)

/-! ### C8 — the candidate-path constructors of `PSOGAOptimizer`

Randomness is made explicit: each random draw of the source becomes a
parameter, constrained exactly as the source constrains it.

* `initialize_population` (lines 241-278): starting from `[self]`, each drawn
  intermediate (a member of `inter`, which excludes `self` and the
  destination) is appended when not already on the path; the destination is
  appended when absent; a path shorter than 2 is replaced by
  `[self, destination]`.  `draws` is the sequence of `random.choice(inter)`
  results, so every draw differs from the destination (and from `self`,
  which is not needed for the proof).
* `update_particles` (lines 322-361): starting from `[self]`, each candidate
  `available[idx]` is appended when new and different from the destination,
  then the destination is appended when absent.  `picks` is the sequence of
  selected candidates.
* `arithmetic_crossover` (lines 417-440) and `mutate` (lines 363-403) are
  embedded below in full.
-/

namespace Psoga

def init_path (self dest : ℤ) (draws : List ℤ) : List ℤ :=
  let path := draws.foldl
    (fun path nxt => if nxt ∈ path then path else path ++ [nxt]) [self]
  let path2 := if dest ∈ path then path else path ++ [dest]
  if path2.length < 2 then [self, dest] else path2

def update_path (self dest : ℤ) (picks : List ℤ) : List ℤ :=
  let path := picks.foldl
    (fun path nxt => if nxt ∉ path ∧ nxt ≠ dest then path ++ [nxt] else path) [self]
  if dest ∈ path then path else path ++ [dest]

end Psoga

/-- Invariant of the path-growing fold of `initialize_population`. -/
theorem init_fold_invariant (self dest : ℤ) :
    ∀ (draws : List ℤ) (acc : List ℤ), (∀ x ∈ draws, x ≠ dest) →
    acc ≠ [] → acc.head? = some self → acc.Nodup → dest ∉ acc →
    (draws.foldl (fun path nxt => if nxt ∈ path then path else path ++ [nxt]) acc) ≠ []
    ∧ (draws.foldl (fun path nxt => if nxt ∈ path then path else path ++ [nxt]) acc).head?
        = some self
    ∧ (draws.foldl (fun path nxt => if nxt ∈ path then path else path ++ [nxt]) acc).Nodup
    ∧ dest ∉ (draws.foldl (fun path nxt => if nxt ∈ path then path else path ++ [nxt]) acc) := by
  intro draws
  induction draws with
  | nil => intro acc hdr h1 h2 h3 h4; exact ⟨h1, h2, h3, h4⟩
  | cons d rest ih =>
      intro acc hdr h1 h2 h3 h4
      have hdd : d ≠ dest := hdr d (List.mem_cons_self d rest)
      have hrest : ∀ x ∈ rest, x ≠ dest := fun x hx => hdr x (List.mem_cons_of_mem _ hx)
      simp only [List.foldl_cons]
      by_cases hd : d ∈ acc
      · rw [if_pos hd]
        exact ih acc hrest h1 h2 h3 h4
      · rw [if_neg hd]
        refine ih (acc ++ [d]) hrest (by simp) ?_ ?_ ?_
        · rw [head?_append_of_ne_nil acc [d] h1]
          exact h2
        · have : (acc ++ d :: ([] : List ℤ)).Nodup ↔ (d :: (acc ++ [])).Nodup :=
            List.nodup_middle
          simpa using this.mpr (by simpa using List.nodup_cons.mpr ⟨hd, h3⟩)
        · simp only [List.mem_append, List.mem_singleton, not_or]
          exact ⟨h4, fun hc => hdd (hc ▸ rfl)⟩

/-- Invariant of the path-rebuilding fold of `update_particles`. -/
theorem update_fold_invariant (self dest : ℤ) :
    ∀ (picks : List ℤ) (acc : List ℤ),
    acc ≠ [] → acc.head? = some self → acc.Nodup → dest ∉ acc →
    (picks.foldl (fun path nxt => if nxt ∉ path ∧ nxt ≠ dest then path ++ [nxt] else path) acc) ≠ []
    ∧ (picks.foldl (fun path nxt => if nxt ∉ path ∧ nxt ≠ dest then path ++ [nxt] else path) acc).head?
        = some self
    ∧ (picks.foldl (fun path nxt => if nxt ∉ path ∧ nxt ≠ dest then path ++ [nxt] else path) acc).Nodup
    ∧ dest ∉ (picks.foldl (fun path nxt => if nxt ∉ path ∧ nxt ≠ dest then path ++ [nxt] else path) acc) := by
  intro picks
  induction picks with
  | nil => intro acc h1 h2 h3 h4; exact ⟨h1, h2, h3, h4⟩
  | cons d rest ih =>
      intro acc h1 h2 h3 h4
      simp only [List.foldl_cons]
      by_cases hd : d ∉ acc ∧ d ≠ dest
      · rw [if_pos hd]
        refine ih (acc ++ [d]) (by simp) ?_ ?_ ?_
        · rw [head?_append_of_ne_nil acc [d] h1]
          exact h2
        · have : (acc ++ d :: ([] : List ℤ)).Nodup ↔ (d :: (acc ++ [])).Nodup :=
            List.nodup_middle
          simpa using this.mpr (by simpa using List.nodup_cons.mpr ⟨hd.1, h3⟩)
        · simp only [List.mem_append, List.mem_singleton, not_or]
          exact ⟨h4, fun hc => hd.2 (hc ▸ rfl)⟩
      · rw [if_neg hd]
        exact ih acc h1 h2 h3 h4

/-- A grown path with the destination appended is well-formed. -/
theorem wf_of_grown_path (self dest : ℤ) (r : List ℤ) (h1 : r ≠ [])
    (h2 : r.head? = some self) (h3 : r.Nodup) (h4 : dest ∉ r) :
    WFPath self dest (r ++ [dest]) := by
  refine ⟨?_, ?_, ?_, ?_⟩
  · rw [head?_append_of_ne_nil r [dest] h1]
    exact h2
  · exact List.getLast?_concat r
  · have : (r ++ dest :: ([] : List ℤ)).Nodup ↔ (dest :: (r ++ [])).Nodup :=
      List.nodup_middle
    simpa using this.mpr (by simpa using List.nodup_cons.mpr ⟨h4, h3⟩)
  · have : 0 < r.length := List.length_pos.mpr h1
    simp only [List.length_append, List.length_singleton]
    omega

theorem init_path_wf (self dest : ℤ) (draws : List ℤ) (hsd : dest ≠ self)
    (hdr : ∀ x ∈ draws, x ≠ dest) :
    WFPath self dest (Psoga.init_path self dest draws) := by
  have hfold := init_fold_invariant self dest draws [self] hdr (by simp) rfl
    (by simp) (by simpa using hsd)
  have hwf := wf_of_grown_path self dest _ hfold.1 hfold.2.1 hfold.2.2.1 hfold.2.2.2
  have hlen : ¬ ((draws.foldl
      (fun path nxt => if nxt ∈ path then path else path ++ [nxt]) [self])
        ++ [dest]).length < 2 := by
    have := hwf.2.2.2
    omega
  simp only [Psoga.init_path]
  rw [if_neg hfold.2.2.2, if_neg hlen]
  exact hwf

theorem update_path_wf (self dest : ℤ) (picks : List ℤ) (hsd : dest ≠ self) :
    WFPath self dest (Psoga.update_path self dest picks) := by
  have hfold := update_fold_invariant self dest picks [self] (by simp) rfl
    (by simp) (by simpa using hsd)
  simp only [Psoga.update_path]
  rw [if_neg hfold.2.2.2]
  exact wf_of_grown_path self dest _ hfold.1 hfold.2.1 hfold.2.2.1 hfold.2.2.2

namespace Psoga

/-- The position score of `arithmetic_crossover`:
`mid.index(n)/len(mid) if n in mid and len(mid) > 0 else 1.0`. -/
def mid_pos (mid : List ℤ) (n : ℤ) : ℚ :=
  if n ∈ mid ∧ 0 < mid.length then (mid.indexOf n : ℚ) / (mid.length : ℚ) else 1

/-- `PSOGAOptimizer.arithmetic_crossover` (lines 417-440), path part.
`list(set(mid1+mid2))` enumerates in an unspecified order; it is modelled by
first-occurrence order, which only influences how ties are broken by the
(stable) sort.  `int(alpha*len)` truncates toward zero, i.e. takes the floor
for the nonnegative values that occur. -/
def arithmetic_crossover_path (self dest : ℤ) (alpha : ℚ) (p1 p2 : List ℤ) :
    List ℤ :=
  let mid1 := (p1.drop 1).dropLast
  let mid2 := (p2.drop 1).dropLast
  let union := Fanet.dedupKeepFirst (mid1 ++ mid2)
  let sortedNodes := union.insertionSort (fun a b =>
    alpha * mid_pos mid1 a + (1 - alpha) * mid_pos mid2 a
      ≤ alpha * mid_pos mid1 b + (1 - alpha) * mid_pos mid2 b)
  let childMid := sortedNodes.take (max 1 (⌊alpha * (sortedNodes.length : ℚ)⌋.toNat))
  Fanet.dedupKeepFirst (self :: (childMid ++ [dest]))

/-- The three mutation shapes of `PSOGAOptimizer.mutate` (lines 363-403),
with the random position and node as parameters. -/
inductive MutOp
  | addNode (pos : ℕ) (nn : ℤ)
  | removeNode (pos : ℕ)
  | replaceNode (pos : ℕ) (nn : ℤ)
deriving DecidableEq

/-- The ranges of the `random.randint` position draws of `mutate`:
`randint(1, len(cur)-1)` for add, `randint(1, len(cur)-2)` for remove and
replace (the latter two are only drawn when `len(cur) > 2`). -/
def MutOpOK (cur : List ℤ) : MutOp → Prop
  | .addNode pos _ => 1 ≤ pos ∧ pos + 1 ≤ cur.length
  | .removeNode pos => 2 < cur.length → 1 ≤ pos ∧ pos + 2 ≤ cur.length
  | .replaceNode pos _ => 2 < cur.length → 1 ≤ pos ∧ pos + 2 ≤ cur.length

instance (cur : List ℤ) (op : MutOp) : Decidable (MutOpOK cur op) :=
  match op with
  | .addNode pos _ =>
      inferInstanceAs (Decidable (1 ≤ pos ∧ pos + 1 ≤ cur.length))
  | .removeNode pos =>
      inferInstanceAs (Decidable (2 < cur.length → 1 ≤ pos ∧ pos + 2 ≤ cur.length))
  | .replaceNode pos _ =>
      inferInstanceAs (Decidable (2 < cur.length → 1 ≤ pos ∧ pos + 2 ≤ cur.length))

/-- The list surgery of `mutate`: `cur.insert(pos, nn)`, `cur.pop(pos)` and
`cur[pos] = nn`, written with `take`/`drop`, each under the source's guards. -/
def mutate_core (dest : ℤ) (avail : List ℤ) (cur : List ℤ) : MutOp → List ℤ
  | .addNode pos nn =>
      if cur.length < Fanet.MAX_HOPS ∧ avail ≠ [] ∧ nn ∉ cur ∧ nn ≠ dest then
        cur.take pos ++ nn :: cur.drop pos
      else cur
  | .removeNode pos =>
      if 2 < cur.length then cur.take pos ++ cur.drop (pos + 1) else cur
  | .replaceNode pos nn =>
      if avail ≠ [] ∧ 2 < cur.length ∧ nn ∉ cur ∧ nn ≠ dest then
        cur.take pos ++ nn :: cur.drop (pos + 1)
      else cur

/-- `PSOGAOptimizer.mutate` (lines 363-403), path part: a path shorter than
2 is returned unchanged; otherwise the surgery result is de-duplicated
keeping first occurrences, `self` is prepended when not already in front,
and the destination appended when not already last. -/
def mutate_path (self dest : ℤ) (avail cur : List ℤ) (op : MutOp) : List ℤ :=
  if cur.length < 2 then cur
  else
    let uniq := Fanet.dedupKeepFirst (mutate_core dest avail cur op)
    let uniq2 := if uniq.head? = some self then uniq else self :: uniq
    if uniq2.getLast? = some dest then uniq2 else uniq2 ++ [dest]

end Psoga

/-- A well-formed path `p = self :: mid ++ [dest]` has a midsection free of
both endpoints, and its endpoints differ. -/
theorem wf_mid_facts (self dest : ℤ) (p : List ℤ) (h : WFPath self dest p) :
    self ∉ (p.drop 1).dropLast ∧ dest ∉ (p.drop 1).dropLast ∧ self ≠ dest := by
  obtain ⟨hhead, hlast, hnd, hlen⟩ := h
  cases p with
  | nil => simp at hhead
  | cons a t =>
      have ha : a = self := by simpa using hhead
      subst ha
      have htne : t ≠ [] := by
        intro hc
        rw [hc] at hlen
        simp at hlen
      have htlast : t.getLast? = some dest := by
        rw [getLast?_cons_of_ne_nil a htne] at hlast
        exact hlast
      obtain ⟨hself_t, htnd⟩ := List.nodup_cons.mp hnd
      have hdecomp : t.dropLast ++ [dest] = t :=
        List.dropLast_append_getLast? dest htlast
      have hdest_dl : dest ∉ t.dropLast := by
        have hmid : (t.dropLast ++ dest :: ([] : List ℤ)).Nodup ↔
            (dest :: (t.dropLast ++ [])).Nodup := List.nodup_middle
        have := hmid.mp (by rw [hdecomp]; exact htnd)
        simp only [List.append_nil] at this
        exact (List.nodup_cons.mp this).1
      have hdl_sub : t.dropLast ⊆ t := (List.dropLast_sublist t).subset
      have hdest_t : dest ∈ t := by
        rw [← hdecomp]
        simp
      refine ⟨?_, ?_, ?_⟩
      · simp only [List.drop_succ_cons, List.drop_zero]
        exact fun hc => hself_t (hdl_sub hc)
      · simp only [List.drop_succ_cons, List.drop_zero]
        exact hdest_dl
      · exact fun hc => hself_t (hc ▸ hdest_t)

/-- Assembling `self :: mid ++ [dest]` from a duplicate-free midsection
avoiding both endpoints, then de-duplicating, yields a well-formed path. -/
theorem wf_assembled (self dest : ℤ) (mid : List ℤ) (hnd : mid.Nodup)
    (hself : self ∉ mid) (hdest : dest ∉ mid) (hsd : self ≠ dest) :
    WFPath self dest (dedupKeepFirst (self :: (mid ++ [dest]))) := by
  have hmidnd : (mid ++ [dest]).Nodup := by
    have hmid : (mid ++ dest :: ([] : List ℤ)).Nodup ↔
        (dest :: (mid ++ [])).Nodup := List.nodup_middle
    simpa using hmid.mpr (by simpa using List.nodup_cons.mpr ⟨hdest, hnd⟩)
  have hall : (self :: (mid ++ [dest])).Nodup := by
    refine List.nodup_cons.mpr ⟨?_, hmidnd⟩
    simp only [List.mem_append, List.mem_singleton, not_or]
    exact ⟨hself, hsd⟩
  rw [dedupKeepFirst_eq_self _ hall]
  refine ⟨rfl, ?_, hall, ?_⟩
  · rw [getLast?_cons_of_ne_nil self (by simp)]
    exact List.getLast?_concat mid
  · simp only [List.length_cons, List.length_append, List.length_singleton]
    omega

theorem arithmetic_crossover_path_wf (self dest : ℤ) (alpha : ℚ) (p1 p2 : List ℤ)
    (h1 : WFPath self dest p1) (h2 : WFPath self dest p2) :
    WFPath self dest (Psoga.arithmetic_crossover_path self dest alpha p1 p2) := by
  obtain ⟨hs1, hd1, hsd⟩ := wf_mid_facts self dest p1 h1
  obtain ⟨hs2, hd2, _⟩ := wf_mid_facts self dest p2 h2
  simp only [Psoga.arithmetic_crossover_path]
  have hperm := List.perm_insertionSort (fun a b =>
    alpha * Psoga.mid_pos ((p1.drop 1).dropLast) a
        + (1 - alpha) * Psoga.mid_pos ((p2.drop 1).dropLast) a
      ≤ alpha * Psoga.mid_pos ((p1.drop 1).dropLast) b
        + (1 - alpha) * Psoga.mid_pos ((p2.drop 1).dropLast) b)
    (dedupKeepFirst ((p1.drop 1).dropLast ++ (p2.drop 1).dropLast))
  have hsortnd := hperm.nodup_iff.mpr
    (nodup_dedupKeepFirst ((p1.drop 1).dropLast ++ (p2.drop 1).dropLast))
  apply wf_assembled self dest _ ?_ ?_ ?_ hsd
  · exact hsortnd.sublist (List.take_sublist _ _)
  · intro hc
    have := (mem_dedupKeepFirst self _).mp
      (hperm.mem_iff.mp ((List.take_sublist _ _).subset hc))
    rcases List.mem_append.mp this with hmem | hmem
    · exact hs1 hmem
    · exact hs2 hmem
  · intro hc
    have := (mem_dedupKeepFirst dest _).mp
      (hperm.mem_iff.mp ((List.take_sublist _ _).subset hc))
    rcases List.mem_append.mp this with hmem | hmem
    · exact hd1 hmem
    · exact hd2 hmem

theorem mutate_core_wf (self dest : ℤ) (avail cur : List ℤ) (op : Psoga.MutOp)
    (hwf : WFPath self dest cur) (hok : Psoga.MutOpOK cur op) :
    WFPath self dest (Psoga.mutate_core dest avail cur op) := by
  obtain ⟨hhead, hlast, hnd, hlen⟩ := hwf
  cases op with
  | addNode pos nn =>
      simp only [Psoga.mutate_core]
      by_cases hg : cur.length < MAX_HOPS ∧ avail ≠ [] ∧ nn ∉ cur ∧ nn ≠ dest
      · rw [if_pos hg]
        obtain ⟨hp1, hp2⟩ := hok
        have htk : (cur.take pos).head? = some self := by
          rw [head?_take_pos cur pos hp1]
          exact hhead
        have htkne : cur.take pos ≠ [] := by
          intro hc
          rw [hc] at htk
          simp at htk
        have hdrne : cur.drop pos ≠ [] := by
          have hlp : 0 < (cur.drop pos).length := by
            rw [List.length_drop]
            omega
          intro hc
          rw [hc] at hlp
          simp at hlp
        refine ⟨?_, ?_, ?_, ?_⟩
        · rw [head?_append_of_ne_nil _ _ htkne]
          exact htk
        · rw [List.getLast?_append_cons, getLast?_cons_of_ne_nil nn hdrne,
            getLast?_drop cur pos (by omega)]
          exact hlast
        · have hmid : (cur.take pos ++ nn :: cur.drop pos).Nodup ↔
              (nn :: (cur.take pos ++ cur.drop pos)).Nodup := List.nodup_middle
          rw [hmid, List.take_append_drop]
          exact List.nodup_cons.mpr ⟨hg.2.2.1, hnd⟩
        · simp only [List.length_append, List.length_take, List.length_cons,
            List.length_drop]
          omega
      · rw [if_neg hg]
        exact ⟨hhead, hlast, hnd, hlen⟩
  | removeNode pos =>
      simp only [Psoga.mutate_core]
      by_cases hg : 2 < cur.length
      · rw [if_pos hg]
        obtain ⟨hp1, hp2⟩ := hok hg
        have htk : (cur.take pos).head? = some self := by
          rw [head?_take_pos cur pos hp1]
          exact hhead
        have htkne : cur.take pos ≠ [] := by
          intro hc
          rw [hc] at htk
          simp at htk
        have hdrne : cur.drop (pos + 1) ≠ [] := by
          have hlp : 0 < (cur.drop (pos + 1)).length := by
            rw [List.length_drop]
            omega
          intro hc
          rw [hc] at hlp
          simp at hlp
        refine ⟨?_, ?_, ?_, ?_⟩
        · rw [head?_append_of_ne_nil _ _ htkne]
          exact htk
        · rw [List.getLast?_append_of_ne_nil _ hdrne,
            getLast?_drop cur (pos + 1) (by omega)]
          exact hlast
        · exact hnd.sublist (takeDrop_sublist cur pos)
        · simp only [List.length_append, List.length_take, List.length_drop]
          omega
      · rw [if_neg hg]
        exact ⟨hhead, hlast, hnd, hlen⟩
  | replaceNode pos nn =>
      simp only [Psoga.mutate_core]
      by_cases hg : avail ≠ [] ∧ 2 < cur.length ∧ nn ∉ cur ∧ nn ≠ dest
      · rw [if_pos hg]
        obtain ⟨hp1, hp2⟩ := hok hg.2.1
        have htk : (cur.take pos).head? = some self := by
          rw [head?_take_pos cur pos hp1]
          exact hhead
        have htkne : cur.take pos ≠ [] := by
          intro hc
          rw [hc] at htk
          simp at htk
        have hdrne : cur.drop (pos + 1) ≠ [] := by
          have hlp : 0 < (cur.drop (pos + 1)).length := by
            rw [List.length_drop]
            omega
          intro hc
          rw [hc] at hlp
          simp at hlp
        refine ⟨?_, ?_, ?_, ?_⟩
        · rw [head?_append_of_ne_nil _ _ htkne]
          exact htk
        · rw [List.getLast?_append_cons, getLast?_cons_of_ne_nil nn hdrne,
            getLast?_drop cur (pos + 1) (by omega)]
          exact hlast
        · have hmid : (cur.take pos ++ nn :: cur.drop (pos + 1)).Nodup ↔
              (nn :: (cur.take pos ++ cur.drop (pos + 1))).Nodup := List.nodup_middle
          rw [hmid]
          refine List.nodup_cons.mpr ⟨?_, hnd.sublist (takeDrop_sublist cur pos)⟩
          intro hc
          exact hg.2.2.1 ((takeDrop_sublist cur pos).subset hc)
        · simp only [List.length_append, List.length_take, List.length_cons,
            List.length_drop]
          omega
      · rw [if_neg hg]
        exact ⟨hhead, hlast, hnd, hlen⟩

theorem mutate_path_wf (self dest : ℤ) (avail cur : List ℤ) (op : Psoga.MutOp)
    (hwf : WFPath self dest cur) (hok : Psoga.MutOpOK cur op) :
    WFPath self dest (Psoga.mutate_path self dest avail cur op) := by
  have hc := mutate_core_wf self dest avail cur op hwf hok
  have hlen2 : ¬ cur.length < 2 := by
    have := hwf.2.2.2
    omega
  simp only [Psoga.mutate_path]
  rw [if_neg hlen2, dedupKeepFirst_eq_self _ hc.2.2.1, if_pos hc.1, if_pos hc.2.1]
  exact hc

/-- Claim C8: every candidate path produced by population initialization, by
the per-iteration particle rebuild, by arithmetic crossover of two
well-formed parents, or by mutation of a well-formed particle, starts at the
node's own id, ends at the destination, and contains no repeated node. -/
theorem C8_candidate_paths :
    (∀ (self dest : ℤ) (draws : List ℤ), dest ≠ self → (∀ x ∈ draws, x ≠ dest) →
      WFPath self dest (Psoga.init_path self dest draws))
    ∧ (∀ (self dest : ℤ) (picks : List ℤ), dest ≠ self →
      WFPath self dest (Psoga.update_path self dest picks))
    ∧ (∀ (self dest : ℤ) (alpha : ℚ) (p1 p2 : List ℤ),
      WFPath self dest p1 → WFPath self dest p2 →
      WFPath self dest (Psoga.arithmetic_crossover_path self dest alpha p1 p2))
    ∧ (∀ (self dest : ℤ) (avail cur : List ℤ) (op : Psoga.MutOp),
      WFPath self dest cur → Psoga.MutOpOK cur op →
      WFPath self dest (Psoga.mutate_path self dest avail cur op)) :=
  ⟨init_path_wf, update_path_wf, arithmetic_crossover_path_wf, mutate_path_wf⟩

/-- Witness for C8 at concrete inputs. -/
theorem C8_candidate_paths_witness :
    WFPath 4 0 (Psoga.init_path 4 0 [1, 2, 1])
    ∧ WFPath 4 0 (Psoga.update_path 4 0 [2, 0, 3])
    ∧ WFPath 4 0 (Psoga.arithmetic_crossover_path 4 0 (1/2) [4, 1, 0] [4, 2, 0])
    ∧ WFPath 4 0 (Psoga.mutate_path 4 0 [1, 2, 3] [4, 1, 0] (.removeNode 1)) :=
  ⟨C8_candidate_paths.1 4 0 [1, 2, 1] (by decide) (by decide),
   C8_candidate_paths.2.1 4 0 [2, 0, 3] (by decide),
   C8_candidate_paths.2.2.1 4 0 (1/2) [4, 1, 0] [4, 2, 0] (by decide) (by decide),
   C8_candidate_paths.2.2.2 4 0 [1, 2, 3] [4, 1, 0] (.removeNode 1)
     (by decide) (by decide)⟩

end Fanet
